import Mathlib

/-!
# Figures: a shallow embedding of `Figure.cpp`

The program defines an abstract `Shape` with the variants `Circle`, `Square`
and `Triangle`, each able to draw itself on a GDI device context, to move and
to rotate, and a window procedure that owns one shape of each kind.

Modelling conventions.

* `int` and `LONG` are unbounded integers (`Int`); `/` on them is C++ integer
  division, which truncates toward zero (`Int.tdiv`).
* `double` is an ordered field `K` with a floor function.  The definitions are
  generic in `K`, so they run on `ℚ`.  Every computation on `double` has two
  readings.  The first computes exactly; it is the reading of statements that
  idealise `double` as the reals, and its theorems take `K := ℝ` with
  `Real.cos` and `Real.sin`.  The second, marked by the suffix `Fl`, rounds the
  result of every addition, subtraction and multiplication by a function `fl`,
  and with `rnd64` for `fl` it is IEEE 754 binary64 arithmetic, rounding to
  nearest with ties to even, as the program runs it.
* `cos` and `sin` of `<cmath>` are passed as a `Trig K` record.  For the
  binary64 reading the record holds the `double` values the C library returns
  at the arguments in use; the general theorems ask of it only that the values
  lie in [-1, 1] or are close to the exact cosine and sine.
* `static_cast<int>` of a `double` truncates toward zero (`toInt`).
* The GDI device context is an explicit state: the selected brush, the table
  of live solid brushes and the list of drawing commands issued so far.
-/

namespace Figures

/-! ## Scalars -/

/-- The two functions of `<cmath>` the program calls, over the scalar type
that stands for `double`. -/
structure Trig (K : Type) where
  cos : K → K
  sin : K → K

/-- The conversion `static_cast<int>(v)` of a `double`: truncation toward
zero. -/
def toInt {K : Type} [LinearOrderedField K] [FloorRing K] (v : K) : Int :=
  if 0 ≤ v then ⌊v⌋ else ⌈v⌉

/-! ## GDI -/

/-- The structure `POINT` of `windows.h`. -/
structure POINT where
  x : Int
  y : Int
deriving DecidableEq

/-- A colour value `COLORREF`. -/
abbrev COLORREF := Nat

/-- The macro `RGB(r, g, b)` of `wingdi.h`. -/
def RGB (r g b : Nat) : COLORREF := r ||| (g <<< 8) ||| (b <<< 16)

/-- A brush handle `HBRUSH`. -/
abbrev HBRUSH := Nat

/-- A drawing call received by the device context. -/
inductive Command where
  | Ellipse (left top right bottom : Int)
  | Polygon (pts : List POINT)
  | Polyline (pts : List POINT)
deriving DecidableEq

/-- One entry of the output log: the drawing call, and the colour of the brush
selected when it was issued (`none` when that brush is not a live solid brush
of the table). -/
structure Drawn where
  cmd : Command
  fill : Option COLORREF
deriving DecidableEq

/-- The state behind a device context handle `HDC`. -/
structure HDC where
  /-- The brush currently selected into the device context. -/
  selected : HBRUSH
  /-- The live solid brushes, each with its colour. -/
  brushes : List (HBRUSH × COLORREF)
  /-- The drawing calls issued so far, oldest first. -/
  issued : List Drawn
deriving DecidableEq

namespace HDC

/-- A handle used neither by the selected brush nor by a live brush. -/
def freshHandle (hDC : HDC) : HBRUSH :=
  (hDC.selected :: hDC.brushes.map Prod.fst).foldr max 0 + 1

/-- The colour the selected brush paints with. -/
def fillColor (hDC : HDC) : Option COLORREF :=
  (hDC.brushes.find? (fun b => b.1 == hDC.selected)).map Prod.snd

/-- The call `CreateSolidBrush(color)`: a new live brush; returns its handle. -/
def CreateSolidBrush (hDC : HDC) (color : COLORREF) : HBRUSH × HDC :=
  (hDC.freshHandle, { hDC with brushes := hDC.brushes ++ [(hDC.freshHandle, color)] })

/-- The call `SelectObject(hDC, hBrush)`: selects the brush and returns the one
selected before. -/
def SelectObject (hDC : HDC) (hBrush : HBRUSH) : HBRUSH × HDC :=
  (hDC.selected, { hDC with selected := hBrush })

/-- The call `DeleteObject(hBrush)`: the brush leaves the table; a brush that
is still selected into the device context is not deleted. -/
def DeleteObject (hDC : HDC) (hBrush : HBRUSH) : HDC :=
  if hDC.selected = hBrush then hDC
  else { hDC with brushes := hDC.brushes.filter (fun b => b.1 != hBrush) }

/-- Appends a drawing call to the log, painted with the selected brush. -/
def issue (hDC : HDC) (cmd : Command) : HDC :=
  { hDC with issued := hDC.issued ++ [{ cmd := cmd, fill := hDC.fillColor }] }

/-- The call `Ellipse(hDC, left, top, right, bottom)`. -/
def Ellipse (hDC : HDC) (left top right bottom : Int) : HDC :=
  hDC.issue (Command.Ellipse left top right bottom)

/-- The call `Polygon(hDC, pts, n)`: a closed polygon through the first `n`
points. -/
def Polygon (hDC : HDC) (pts : List POINT) (n : Nat) : HDC :=
  hDC.issue (Command.Polygon (pts.take n))

/-- The call `Polyline(hDC, pts, n)`: an open line through the first `n`
points. -/
def Polyline (hDC : HDC) (pts : List POINT) (n : Nat) : HDC :=
  hDC.issue (Command.Polyline (pts.take n))

end HDC

/-- The segments joining each point of a list to the next one. -/
def consecutive : List POINT → List (POINT × POINT)
  | p :: q :: rest => (p, q) :: consecutive (q :: rest)
  | _ => []

/-- The line segments a drawing call traces, as GDI documents them: `Polyline`
joins each point to the next, `Polygon` also closes the figure from the last
point back to the first.  An ellipse has none. -/
def Command.segments : Command → List (POINT × POINT)
  | Command.Ellipse _ _ _ _ => []
  | Command.Polyline pts => consecutive pts
  | Command.Polygon pts =>
    match pts with
    | [] => []
    | p :: rest => consecutive (p :: rest) ++ [((p :: rest).getLast (List.cons_ne_nil p rest), p)]

/-! ## Shape -/

section Shapes

variable {K : Type} [LinearOrderedField K] [FloorRing K]

/-- The helper `Shape::rotatePoint`, its products and sums computed exactly;
`rotatePointFl` rounds them. -/
def rotatePoint (T : Trig K) (point center : POINT) (angle : K) : POINT :=
  let dx : K := ((point.x - center.x : Int) : K)
  let dy : K := ((point.y - center.y : Int) : K)
  let newX : K := (center.x : K) + (dx * T.cos angle - dy * T.sin angle)
  let newY : K := (center.y : K) + (dx * T.sin angle + dy * T.cos angle)
  { x := toInt newX, y := toInt newY }

/-! ### Circle -/

/-- The class `Circle`. -/
structure Circle where
  center : POINT
  radius : Int
deriving DecidableEq

namespace Circle

/-- The method `Circle::draw`. -/
def draw (c : Circle) (hDC : HDC) : HDC :=
  hDC.Ellipse (c.center.x - c.radius) (c.center.y - c.radius)
    (c.center.x + c.radius) (c.center.y + c.radius)

/-- The method `Circle::drawFilled`. -/
def drawFilled (c : Circle) (hDC : HDC) : HDC :=
  let (hBrush, hDC) := hDC.CreateSolidBrush (RGB 255 0 0)
  let (hOldBrush, hDC) := hDC.SelectObject hBrush
  let hDC := c.draw hDC
  let (_, hDC) := hDC.SelectObject hOldBrush
  hDC.DeleteObject hBrush

/-- The method `Circle::moveFigure`. -/
def moveFigure (c : Circle) (dx dy : Int) : Circle :=
  { c with center := { x := c.center.x + dx, y := c.center.y + dy } }

/-- The method `Circle::rotate`: its body is empty. -/
def rotate (c : Circle) (_angle : K) : Circle := c

end Circle

/-! ### Square -/

/-- The class `Square`. -/
structure Square (K : Type) where
  centerX : Int
  centerY : Int
  sideLength : Int
  angle : K

namespace Square

/-- The constructor `Square::Square`: the angle starts at zero. -/
def new (_centerX _centerY _sideLength : Int) : Square K :=
  { centerX := _centerX, centerY := _centerY, sideLength := _sideLength, angle := 0 }

/-- The array `vertices` that `Square::draw` fills, its products and sums
computed exactly; `Square.verticesFl` rounds them. -/
def vertices (T : Trig K) (s : Square K) : List POINT :=
  let cosAngle : K := T.cos s.angle
  let sinAngle : K := T.sin s.angle
  let halfLength : Int := Int.tdiv s.sideLength 2
  [ { x := s.centerX + toInt ((halfLength : K) * cosAngle - (halfLength : K) * sinAngle),
      y := s.centerY + toInt ((halfLength : K) * sinAngle + (halfLength : K) * cosAngle) },
    { x := s.centerX + toInt ((halfLength : K) * cosAngle + (halfLength : K) * sinAngle),
      y := s.centerY + toInt ((halfLength : K) * sinAngle - (halfLength : K) * cosAngle) },
    { x := s.centerX + toInt (((-halfLength : Int) : K) * cosAngle + (halfLength : K) * sinAngle),
      y := s.centerY + toInt (((-halfLength : Int) : K) * sinAngle - (halfLength : K) * cosAngle) },
    { x := s.centerX + toInt (((-halfLength : Int) : K) * cosAngle - (halfLength : K) * sinAngle),
      y := s.centerY + toInt (((-halfLength : Int) : K) * sinAngle + (halfLength : K) * cosAngle) } ]

/-- The method `Square::draw`. -/
def draw (T : Trig K) (s : Square K) (hDC : HDC) : HDC :=
  hDC.Polygon (s.vertices T) 4

/-- The method `Square::drawFilled`. -/
def drawFilled (T : Trig K) (s : Square K) (hDC : HDC) : HDC :=
  let (hBrush, hDC) := hDC.CreateSolidBrush (RGB 0 255 0)
  let (hOldBrush, hDC) := hDC.SelectObject hBrush
  let hDC := s.draw T hDC
  let (_, hDC) := hDC.SelectObject hOldBrush
  hDC.DeleteObject hBrush

/-- The method `Square::moveFigure`. -/
def moveFigure (s : Square K) (dx dy : Int) : Square K :=
  { s with centerX := s.centerX + dx, centerY := s.centerY + dy }

/-- The method `Square::rotate`, the sum computed exactly; `Square.rotateFl`
rounds it. -/
def rotate (s : Square K) (rotateAngle : K) : Square K :=
  { s with angle := s.angle + rotateAngle }

end Square

/-! ### Triangle -/

/-- The class `Triangle`; `p0`, `p1`, `p2` are `points[0]`, `points[1]`,
`points[2]`. -/
structure Triangle where
  p0 : POINT
  p1 : POINT
  p2 : POINT
deriving DecidableEq

namespace Triangle

/-- The array `points`. -/
def points (t : Triangle) : List POINT := [t.p0, t.p1, t.p2]

/-- The method `Triangle::draw`. -/
def draw (t : Triangle) (hDC : HDC) : HDC :=
  hDC.Polyline t.points 3

/-- The method `Triangle::drawFilled`. -/
def drawFilled (t : Triangle) (hDC : HDC) : HDC :=
  let (hBrush, hDC) := hDC.CreateSolidBrush (RGB 0 0 255)
  let (hOldBrush, hDC) := hDC.SelectObject hBrush
  let hDC := hDC.Polygon t.points 3
  let (_, hDC) := hDC.SelectObject hOldBrush
  hDC.DeleteObject hBrush

/-- The method `Triangle::moveFigure`. -/
def moveFigure (t : Triangle) (dx dy : Int) : Triangle :=
  { p0 := { x := t.p0.x + dx, y := t.p0.y + dy },
    p1 := { x := t.p1.x + dx, y := t.p1.y + dy },
    p2 := { x := t.p2.x + dx, y := t.p2.y + dy } }

/-- The local `center` of `Triangle::rotate`: the average of the vertices, by
integer division. -/
def center (t : Triangle) : POINT :=
  { x := Int.tdiv (t.p0.x + t.p1.x + t.p2.x) 3, y := Int.tdiv (t.p0.y + t.p1.y + t.p2.y) 3 }

/-- The method `Triangle::rotate`, on the exact `rotatePoint`: `center` is
computed once, before the loop over the vertices. -/
def rotate (T : Trig K) (t : Triangle) (rotateAngle : K) : Triangle :=
  let center : POINT := t.center
  { p0 := rotatePoint T t.p0 center rotateAngle,
    p1 := rotatePoint T t.p1 center rotateAngle,
    p2 := rotatePoint T t.p2 center rotateAngle }


/-- The element `points[i]`. -/
def point (t : Triangle) (i : Fin 3) : POINT :=
  match i with
  | 0 => t.p0
  | 1 => t.p1
  | 2 => t.p2

end Triangle

/-! ### Virtual dispatch -/

/-- An object behind a `Shape` pointer: one of the three derived classes. -/
inductive Shape (K : Type) where
  | circle (c : Circle)
  | square (s : Square K)
  | triangle (t : Triangle)

namespace Shape

/-- The virtual method `draw`. -/
def draw (T : Trig K) : Shape K → HDC → HDC
  | circle c => c.draw
  | square s => s.draw T
  | triangle t => t.draw

/-- The virtual method `drawFilled`. -/
def drawFilled (T : Trig K) : Shape K → HDC → HDC
  | circle c => c.drawFilled
  | square s => s.drawFilled T
  | triangle t => t.drawFilled

/-- The virtual method `moveFigure`. -/
def moveFigure : Shape K → Int → Int → Shape K
  | circle c, dx, dy => circle (c.moveFigure dx dy)
  | square s, dx, dy => square (s.moveFigure dx dy)
  | triangle t, dx, dy => triangle (t.moveFigure dx dy)

end Shape

/-- A call of one of the two mutating methods of `Shape`, with its
arguments. -/
inductive Call (K : Type) where
  | moveFigure (dx dy : Int)
  | rotate (angle : K)

/-- Performs one call on a Circle. -/
def Circle.apply (c : Circle) : Call K → Circle
  | Call.moveFigure dx dy => c.moveFigure dx dy
  | Call.rotate angle => c.rotate angle

/-- Performs a sequence of calls on a Circle, first call first. -/
def Circle.run (c : Circle) (calls : List (Call K)) : Circle :=
  calls.foldl Circle.apply c

/-- Performs one call on a Square. -/
def Square.apply (s : Square K) : Call K → Square K
  | Call.moveFigure dx dy => s.moveFigure dx dy
  | Call.rotate angle => s.rotate angle

/-- Performs a sequence of calls on a Square, first call first. -/
def Square.run (s : Square K) (calls : List (Call K)) : Square K :=
  calls.foldl Square.apply s

/-! ### Values before truncation -/

/-- The four pairs of `double` values that `Square::draw` casts to `int`, in
the order of `vertices[0]` to `vertices[3]`. -/
def Square.offsets (T : Trig K) (s : Square K) : List (K × K) :=
  let cosAngle : K := T.cos s.angle
  let sinAngle : K := T.sin s.angle
  let halfLength : Int := Int.tdiv s.sideLength 2
  [ ((halfLength : K) * cosAngle - (halfLength : K) * sinAngle,
      (halfLength : K) * sinAngle + (halfLength : K) * cosAngle),
    ((halfLength : K) * cosAngle + (halfLength : K) * sinAngle,
      (halfLength : K) * sinAngle - (halfLength : K) * cosAngle),
    (((-halfLength : Int) : K) * cosAngle + (halfLength : K) * sinAngle,
      ((-halfLength : Int) : K) * sinAngle - (halfLength : K) * cosAngle),
    (((-halfLength : Int) : K) * cosAngle - (halfLength : K) * sinAngle,
      ((-halfLength : Int) : K) * sinAngle + (halfLength : K) * cosAngle) ]

/-- The corners of the axis-aligned square with the center and the half side
of `s`, in the order (+,+), (+,-), (-,-), (-,+). -/
def Square.corners (s : Square K) : List POINT :=
  let halfLength : Int := Int.tdiv s.sideLength 2
  [ { x := s.centerX + halfLength, y := s.centerY + halfLength },
    { x := s.centerX + halfLength, y := s.centerY - halfLength },
    { x := s.centerX - halfLength, y := s.centerY - halfLength },
    { x := s.centerX - halfLength, y := s.centerY + halfLength } ]

/-- Two values on the same side of zero: both nonnegative or both
nonpositive. -/
def sameSide {α : Type} [Zero α] [LE α] (a b : α) : Prop :=
  (0 ≤ a ∧ 0 ≤ b) ∨ (a ≤ 0 ∧ b ≤ 0)

instance {α : Type} [Zero α] [LE α] [DecidableRel (fun a b : α => a ≤ b)] (a b : α) :
    Decidable (sameSide a b) := by
  unfold sameSide
  infer_instance

/-! ### Arithmetic on `double` with rounding

The definitions above compute on `double` without rounding.  The definitions
below round the result of every addition, subtraction and multiplication on
`double` by a function `fl`, once per operation and in the order of the source;
with `rnd64` for `fl` this is IEEE 754 binary64 arithmetic, as on a target that
evaluates `double` expressions in binary64, without extended precision and
without fused multiply-add.  A conversion from `int` to `double` is exact, and
`cos` and `sin` return values of type `double`. -/

/-- Rounding of a nonnegative value to the nearest integer, a tie going to the
even one. -/
def roundHalfEven (y : K) : Int :=
  if y - (⌊y⌋ : K) < 1 / 2 then ⌊y⌋
  else if 1 / 2 < y - (⌊y⌋ : K) then ⌊y⌋ + 1
  else if ⌊y⌋ % 2 = 0 then ⌊y⌋ else ⌊y⌋ + 1

/-- The binary exponent of the last place of the binary64 values of the
magnitude of `x`: 52 below the exponent of `x`, and never below -1074, the
exponent of the subnormal values. -/
def ulpExp (x : K) : Int := max (Int.log 2 |x| - 52) (-1074)

/-- Rounding to binary64: to the nearest value with 53 significant bits, a tie
going to the value with an even last bit.  Overflow to infinity is outside the
model. -/
def rnd64 (x : K) : K :=
  if 0 ≤ x then (roundHalfEven (|x| / 2 ^ ulpExp x) : K) * 2 ^ ulpExp x
  else -((roundHalfEven (|x| / 2 ^ ulpExp x) : K) * 2 ^ ulpExp x)

/-- A rounded value that does not pass the two integers enclosing the exact
value. -/
def roundsWithin (fl : K → K) (x : K) : Prop :=
  (⌊x⌋ : K) ≤ fl x ∧ fl x ≤ (⌈x⌉ : K)

instance (fl : K → K) (x : K) : Decidable (roundsWithin fl x) := by
  unfold roundsWithin
  infer_instance

/-- The constant `M_PI` of the source: the `double` its literal
3.14159265358979323846 denotes. -/
def M_PI : K := 884279719003555 / 2 ^ 48

/-- The sums `center.x + (...)` and `center.y + (...)` of `Shape::rotatePoint`
before the last rounding: the other operations are rounded by `fl`. -/
def rotatePointFlSum (fl : K → K) (T : Trig K) (point center : POINT) (angle : K) : K × K :=
  let dx : K := ((point.x - center.x : Int) : K)
  let dy : K := ((point.y - center.y : Int) : K)
  ((center.x : K) + fl (fl (dx * T.cos angle) - fl (dy * T.sin angle)),
   (center.y : K) + fl (fl (dx * T.sin angle) + fl (dy * T.cos angle)))

/-- The helper `Shape::rotatePoint`, every operation on `double` rounded by
`fl`. -/
def rotatePointFl (fl : K → K) (T : Trig K) (point center : POINT) (angle : K) : POINT :=
  let dx : K := ((point.x - center.x : Int) : K)
  let dy : K := ((point.y - center.y : Int) : K)
  let newX : K := fl ((center.x : K) + fl (fl (dx * T.cos angle) - fl (dy * T.sin angle)))
  let newY : K := fl ((center.y : K) + fl (fl (dx * T.sin angle) + fl (dy * T.cos angle)))
  { x := toInt newX, y := toInt newY }

/-- The method `Square::rotate`, the addition rounded by `fl`. -/
def Square.rotateFl (fl : K → K) (s : Square K) (rotateAngle : K) : Square K :=
  { s with angle := fl (s.angle + rotateAngle) }

/-- The four pairs of `double` values that `Square::draw` casts to `int`,
every operation rounded by `fl`. -/
def Square.offsetsFl (fl : K → K) (T : Trig K) (s : Square K) : List (K × K) :=
  let cosAngle : K := T.cos s.angle
  let sinAngle : K := T.sin s.angle
  let halfLength : Int := Int.tdiv s.sideLength 2
  [ (fl (fl ((halfLength : K) * cosAngle) - fl ((halfLength : K) * sinAngle)),
      fl (fl ((halfLength : K) * sinAngle) + fl ((halfLength : K) * cosAngle))),
    (fl (fl ((halfLength : K) * cosAngle) + fl ((halfLength : K) * sinAngle)),
      fl (fl ((halfLength : K) * sinAngle) - fl ((halfLength : K) * cosAngle))),
    (fl (fl (((-halfLength : Int) : K) * cosAngle) + fl ((halfLength : K) * sinAngle)),
      fl (fl (((-halfLength : Int) : K) * sinAngle) - fl ((halfLength : K) * cosAngle))),
    (fl (fl (((-halfLength : Int) : K) * cosAngle) - fl ((halfLength : K) * sinAngle)),
      fl (fl (((-halfLength : Int) : K) * sinAngle) + fl ((halfLength : K) * cosAngle))) ]

/-- The array `vertices` that `Square::draw` fills, every operation on
`double` rounded by `fl`. -/
def Square.verticesFl (fl : K → K) (T : Trig K) (s : Square K) : List POINT :=
  let cosAngle : K := T.cos s.angle
  let sinAngle : K := T.sin s.angle
  let halfLength : Int := Int.tdiv s.sideLength 2
  [ { x := s.centerX
        + toInt (fl (fl ((halfLength : K) * cosAngle) - fl ((halfLength : K) * sinAngle))),
      y := s.centerY
        + toInt (fl (fl ((halfLength : K) * sinAngle) + fl ((halfLength : K) * cosAngle))) },
    { x := s.centerX
        + toInt (fl (fl ((halfLength : K) * cosAngle) + fl ((halfLength : K) * sinAngle))),
      y := s.centerY
        + toInt (fl (fl ((halfLength : K) * sinAngle) - fl ((halfLength : K) * cosAngle))) },
    { x := s.centerX
        + toInt (fl (fl (((-halfLength : Int) : K) * cosAngle)
            + fl ((halfLength : K) * sinAngle))),
      y := s.centerY
        + toInt (fl (fl (((-halfLength : Int) : K) * sinAngle)
            - fl ((halfLength : K) * cosAngle))) },
    { x := s.centerX
        + toInt (fl (fl (((-halfLength : Int) : K) * cosAngle)
            - fl ((halfLength : K) * sinAngle))),
      y := s.centerY
        + toInt (fl (fl (((-halfLength : Int) : K) * sinAngle)
            + fl ((halfLength : K) * cosAngle))) } ]

/-- The method `Triangle::rotate`, every operation on `double` rounded by
`fl`; `center` is computed once, before the loop over the vertices. -/
def Triangle.rotateFl (fl : K → K) (T : Trig K) (t : Triangle) (rotateAngle : K) : Triangle :=
  let center : POINT := t.center
  { p0 := rotatePointFl fl T t.p0 center rotateAngle,
    p1 := rotatePointFl fl T t.p1 center rotateAngle,
    p2 := rotatePointFl fl T t.p2 center rotateAngle }

/-- The virtual method `rotate`, every operation on `double` rounded by
`fl`. -/
def Shape.rotateFl (fl : K → K) (T : Trig K) : Shape K → K → Shape K
  | Shape.circle c, angle => Shape.circle (c.rotate angle)
  | Shape.square s, angle => Shape.square (s.rotateFl fl angle)
  | Shape.triangle t, angle => Shape.triangle (t.rotateFl fl T angle)

/-- The values `cos` and `sin` of the C library return at the `double`
`M_PI`: -1 and 0x1.1a62633145c07p-53.  Meant at that argument only. -/
def libmAtPi : Trig ℚ :=
  { cos := fun _ => -1, sin := fun _ => 4967757600021511 / 2 ^ 105 }

/-- The values `cos` and `sin` of the C library return at the `double`
acos(0.6): the `double` values nearest to 3/5 and 4/5.  Meant at that argument
only. -/
def libmAtAcos : Trig ℚ :=
  { cos := fun _ => 5404319552844595 / 2 ^ 53, sin := fun _ => 3602879701896397 / 2 ^ 52 }

/-- The values `cos` and `sin` of the C library return at the `double`
`M_PI / 2`: 0x1.1a62633145c07p-54 and 1.  Meant at that argument only. -/
def libmAtHalfPi : Trig ℚ :=
  { cos := fun _ => 4967757600021511 / 2 ^ 106, sin := fun _ => 1 }

/-! ### The window procedure -/

/-- A window handle `HWND`. -/
abbrev HWND := Nat

/-- A message identifier `UINT`. -/
abbrev UINT := Nat

/-- A message parameter `WPARAM`. -/
abbrev WPARAM := Nat

/-- A message parameter `LPARAM`. -/
abbrev LPARAM := Int

/-- A message result `LRESULT`. -/
abbrev LRESULT := Int

/-- The message `WM_CREATE` of `winuser.h`. -/
def WM_CREATE : UINT := 0x0001

/-- The message `WM_DESTROY` of `winuser.h`. -/
def WM_DESTROY : UINT := 0x0002

/-- The message `WM_PAINT` of `winuser.h`. -/
def WM_PAINT : UINT := 0x000F

/-- A call of `WindowProc` into the windowing system. -/
inductive ApiCall where
  | BeginPaint (hwnd : HWND)
  | EndPaint (hwnd : HWND)
  | PostQuitMessage (nExitCode : Int)
  | DefWindowProc (hwnd : HWND) (uMsg : UINT) (wParam : WPARAM) (lParam : LPARAM)
deriving DecidableEq

/-- Everything `WindowProc` reads or writes. -/
structure World (K : Type) where
  /-- The local `static std::vector<std::unique_ptr<Shape>> shapes`. -/
  shapes : List (Shape K)
  /-- The device context of the window. -/
  hDC : HDC
  /-- Whether the device context is handed out: `BeginPaint` has been called
  and `EndPaint` has not yet. -/
  painting : Bool
  /-- The calls into the windowing system so far, oldest first. -/
  calls : List ApiCall

namespace World

/-- The call `BeginPaint(hwnd, &ps)`: hands out the device context. -/
def BeginPaint (w : World K) (hwnd : HWND) : World K :=
  { w with painting := true, calls := w.calls ++ [ApiCall.BeginPaint hwnd] }

/-- The call `EndPaint(hwnd, &ps)`: takes the device context back. -/
def EndPaint (w : World K) (hwnd : HWND) : World K :=
  { w with painting := false, calls := w.calls ++ [ApiCall.EndPaint hwnd] }

/-- The call `PostQuitMessage(nExitCode)`. -/
def PostQuitMessage (w : World K) (nExitCode : Int) : World K :=
  { w with calls := w.calls ++ [ApiCall.PostQuitMessage nExitCode] }

/-- The call `DefWindowProc(hwnd, uMsg, wParam, lParam)` of the windowing
system; its result is taken to be 0. -/
def DefWindowProc (w : World K) (hwnd : HWND) (uMsg : UINT) (wParam : WPARAM)
    (lParam : LPARAM) : LRESULT × World K :=
  (0, { w with calls := w.calls ++ [ApiCall.DefWindowProc hwnd uMsg wParam lParam] })

/-- The statement `shapes[i]->drawFilled(hDC)`; an index past the end of the
vector has no defined behaviour (`none`). -/
def drawFilledAt (T : Trig K) (w : World K) (i : Nat) : Option (World K) :=
  match w.shapes[i]? with
  | none => none
  | some shape => some { w with hDC := shape.drawFilled T w.hDC }

end World

/-- The function `WindowProc`: the result and the state after the call, or
`none` when the call has no defined behaviour. -/
def WindowProc (T : Trig K) (w : World K) (hwnd : HWND) (uMsg : UINT) (wParam : WPARAM)
    (lParam : LPARAM) : Option (LRESULT × World K) :=
  if uMsg = WM_CREATE then
    let w := { w with shapes := w.shapes ++ [Shape.circle (Circle.mk { x := 100, y := 150 } 75)] }
    let w := { w with shapes := w.shapes ++ [Shape.square (Square.new 250 150 100)] }
    let w := { w with shapes := w.shapes ++
      [Shape.triangle (Triangle.mk { x := 400, y := 50 } { x := 350, y := 200 }
        { x := 450, y := 200 })] }
    some (0, w)
  else if uMsg = WM_PAINT then
    let w := w.BeginPaint hwnd
    match w.drawFilledAt T 0 with
    | none => none
    | some w =>
      match w.drawFilledAt T 1 with
      | none => none
      | some w =>
        match w.drawFilledAt T 2 with
        | none => none
        | some w => some (0, w.EndPaint hwnd)
  else if uMsg = WM_DESTROY then
    some (0, w.PostQuitMessage 0)
  else
    some (w.DefWindowProc hwnd uMsg wParam lParam)

/-- The structure `MSG` of `winuser.h`, as far as `WindowProc` receives it. -/
structure MSG where
  hwnd : HWND
  message : UINT
  wParam : WPARAM
  lParam : LPARAM
deriving DecidableEq

/-- Delivers a sequence of messages to `WindowProc`, first message first, as
`DispatchMessage` does for each message of the loop in `WinMain`. -/
def dispatchAll (T : Trig K) : World K → List MSG → Option (World K)
  | w, [] => some w
  | w, m :: ms =>
    match WindowProc T w m.hwnd m.message m.wParam m.lParam with
    | none => none
    | some r => dispatchAll T r.2 ms

/-- The call sequence `moveFigure` of each pair of a list, as calls. -/
def moves (l : List (Int × Int)) : List (Call K) :=
  l.map (fun d => Call.moveFigure d.1 d.2)

end Shapes

/-! ## Basic facts -/

section Lemmas

variable {K : Type} [LinearOrderedField K] [FloorRing K]

theorem toInt_intCast (n : Int) : toInt (n : K) = n := by
  unfold toInt
  split <;> simp

/-- Truncation moves a value by less than one. -/
theorem abs_toInt_sub_lt (v : K) : |((toInt v : Int) : K) - v| < 1 := by
  unfold toInt
  rw [abs_lt]
  split
  · have h1 := Int.floor_le v
    have h2 := Int.lt_floor_add_one v
    constructor <;> linarith
  · have h1 := Int.le_ceil v
    have h2 := Int.ceil_lt_add_one v
    constructor <;> linarith

/-- Each coordinate `rotatePoint` returns is within less than one of the
exactly rotated coordinate. -/
theorem rotatePoint_close (T : Trig K) (p c : POINT) (θ : K) :
    |((rotatePoint T p c θ).x : K) - ((c.x : K) +
        (((p.x - c.x : Int) : K) * T.cos θ - ((p.y - c.y : Int) : K) * T.sin θ))| < 1 ∧
    |((rotatePoint T p c θ).y : K) - ((c.y : K) +
        (((p.x - c.x : Int) : K) * T.sin θ + ((p.y - c.y : Int) : K) * T.cos θ))| < 1 :=
  ⟨abs_toInt_sub_lt _, abs_toInt_sub_lt _⟩

end Lemmas

/-- Integer division by three leaves a remainder between -2 and 2. -/
theorem tdiv_three_bounds (a : Int) :
    -2 ≤ a - 3 * Int.tdiv a 3 ∧ a - 3 * Int.tdiv a 3 ≤ 2 := by
  rcases le_total 0 a with h | h
  · rw [Int.tdiv_eq_ediv h (by decide)]
    omega
  · have h2 : a = -(-a) := by omega
    have h3 : Int.tdiv a 3 = -((-a) / 3) := by
      rw [h2, Int.neg_tdiv, Int.tdiv_eq_ediv (by omega) (by decide)]
      simp
    rw [h3]
    omega

/-- A sum within 5 of `3 * c` has an integer third within 2 of `c`. -/
theorem tdiv_three_close (N c : Int) (h1 : -5 ≤ N - 3 * c) (h2 : N - 3 * c ≤ 5) :
    |Int.tdiv N 3 - c| ≤ 2 := by
  have h := tdiv_three_bounds N
  rw [abs_le]
  constructor <;> omega

/-- A combination `a * C + b * S` with `C ^ 2 + S ^ 2 = 1` and both
coefficients between -2 and 2 is less than 3 in absolute value. -/
theorem abs_combination_lt_three (C S a b : ℝ) (hCS : C ^ 2 + S ^ 2 = 1)
    (ha1 : -2 ≤ a) (ha2 : a ≤ 2) (hb1 : -2 ≤ b) (hb2 : b ≤ 2) : |a * C + b * S| < 3 := by
  have h1 : (a * C + b * S) ^ 2 + (a * S - b * C) ^ 2 = (a ^ 2 + b ^ 2) * (C ^ 2 + S ^ 2) := by
    ring
  have h2 : a ^ 2 ≤ 4 := by nlinarith
  have h3 : b ^ 2 ≤ 4 := by nlinarith
  have h4 : (a * C + b * S) ^ 2 < 3 ^ 2 := by
    rw [hCS, mul_one] at h1
    nlinarith [sq_nonneg (a * S - b * C)]
  exact abs_lt_of_sq_lt_sq h4 (by norm_num)

/-- The sum of three truncated rotated coordinates stays within 5 of three
times the pivot coordinate. -/
theorem rotated_sum_close (C S : ℝ) (hCS : C ^ 2 + S ^ 2 = 1) (c X0 X1 X2 : Int)
    (a0 a1 a2 b0 b1 b2 : Int)
    (ha1 : -2 ≤ a0 + a1 + a2) (ha2 : a0 + a1 + a2 ≤ 2)
    (hb1 : -2 ≤ b0 + b1 + b2) (hb2 : b0 + b1 + b2 ≤ 2)
    (h0 : |(X0 : ℝ) - ((c : ℝ) + ((a0 : ℝ) * C + (b0 : ℝ) * S))| < 1)
    (h1 : |(X1 : ℝ) - ((c : ℝ) + ((a1 : ℝ) * C + (b1 : ℝ) * S))| < 1)
    (h2 : |(X2 : ℝ) - ((c : ℝ) + ((a2 : ℝ) * C + (b2 : ℝ) * S))| < 1) :
    -5 ≤ X0 + X1 + X2 - 3 * c ∧ X0 + X1 + X2 - 3 * c ≤ 5 := by
  have h := abs_combination_lt_three C S ((a0 + a1 + a2 : Int) : ℝ) ((b0 + b1 + b2 : Int) : ℝ)
    hCS (by exact_mod_cast ha1) (by exact_mod_cast ha2) (by exact_mod_cast hb1)
    (by exact_mod_cast hb2)
  push_cast at h
  rw [abs_lt] at h h0 h1 h2
  have hlo : ((-6 : Int) : ℝ) < ((X0 + X1 + X2 - 3 * c : Int) : ℝ) := by
    push_cast
    linarith
  have hhi : ((X0 + X1 + X2 - 3 * c : Int) : ℝ) < ((6 : Int) : ℝ) := by
    push_cast
    linarith
  have hlo2 : (-6 : Int) < X0 + X1 + X2 - 3 * c := by exact_mod_cast hlo
  have hhi2 : X0 + X1 + X2 - 3 * c < (6 : Int) := by exact_mod_cast hhi
  constructor <;> omega

/-- The pivot the rotation of a Triangle recomputes after one rotation is
within 2 of the pivot used by that rotation, in each coordinate. -/
theorem center_rotate_close (t : Triangle) (θ : ℝ) :
    |(Triangle.rotate (Trig.mk Real.cos Real.sin) t θ).center.x - t.center.x| ≤ 2 ∧
    |(Triangle.rotate (Trig.mk Real.cos Real.sin) t θ).center.y - t.center.y| ≤ 2 := by
  have hCS : Real.cos θ ^ 2 + Real.sin θ ^ 2 = 1 := Real.cos_sq_add_sin_sq θ
  have hCS2 : Real.cos θ ^ 2 + (-Real.sin θ) ^ 2 = 1 := by rw [neg_sq]; exact hCS
  have hx := tdiv_three_bounds (t.p0.x + t.p1.x + t.p2.x)
  have hy := tdiv_three_bounds (t.p0.y + t.p1.y + t.p2.y)
  have e0 := rotatePoint_close (Trig.mk Real.cos Real.sin) t.p0 t.center θ
  have e1 := rotatePoint_close (Trig.mk Real.cos Real.sin) t.p1 t.center θ
  have e2 := rotatePoint_close (Trig.mk Real.cos Real.sin) t.p2 t.center θ
  constructor
  · apply tdiv_three_close
    all_goals
      have hs := rotated_sum_close (Real.cos θ) (-Real.sin θ) hCS2 t.center.x
        (rotatePoint (Trig.mk Real.cos Real.sin) t.p0 t.center θ).x
        (rotatePoint (Trig.mk Real.cos Real.sin) t.p1 t.center θ).x
        (rotatePoint (Trig.mk Real.cos Real.sin) t.p2 t.center θ).x
        (t.p0.x - t.center.x) (t.p1.x - t.center.x) (t.p2.x - t.center.x)
        (t.p0.y - t.center.y) (t.p1.y - t.center.y) (t.p2.y - t.center.y)
        (by simp only [Triangle.center]; omega) (by simp only [Triangle.center]; omega)
        (by simp only [Triangle.center]; omega) (by simp only [Triangle.center]; omega)
        (by have h := e0.1; rw [mul_neg, ← sub_eq_add_neg]; exact h)
        (by have h := e1.1; rw [mul_neg, ← sub_eq_add_neg]; exact h)
        (by have h := e2.1; rw [mul_neg, ← sub_eq_add_neg]; exact h)
    · exact hs.1
    · exact hs.2
  · apply tdiv_three_close
    all_goals
      have hs := rotated_sum_close (Real.sin θ) (Real.cos θ)
        (by rw [add_comm]; exact hCS) t.center.y
        (rotatePoint (Trig.mk Real.cos Real.sin) t.p0 t.center θ).y
        (rotatePoint (Trig.mk Real.cos Real.sin) t.p1 t.center θ).y
        (rotatePoint (Trig.mk Real.cos Real.sin) t.p2 t.center θ).y
        (t.p0.x - t.center.x) (t.p1.x - t.center.x) (t.p2.x - t.center.x)
        (t.p0.y - t.center.y) (t.p1.y - t.center.y) (t.p2.y - t.center.y)
        (by simp only [Triangle.center]; omega) (by simp only [Triangle.center]; omega)
        (by simp only [Triangle.center]; omega) (by simp only [Triangle.center]; omega)
        e0.2 e1.2 e2.2
    · exact hs.1
    · exact hs.2

namespace HDC

theorem le_foldr_max (l : List Nat) (a : Nat) (h : a ∈ l) : a ≤ l.foldr max 0 := by
  induction l with
  | nil => cases h
  | cons b l ih =>
    rcases List.mem_cons.mp h with rfl | h
    · exact le_max_left _ _
    · exact le_trans (ih h) (le_max_right _ _)

theorem selected_lt_freshHandle (hDC : HDC) : hDC.selected < hDC.freshHandle :=
  Nat.lt_succ_of_le (le_foldr_max _ _ (List.mem_cons_self _ _))

theorem lt_freshHandle_of_mem (hDC : HDC) (b : HBRUSH × COLORREF) (h : b ∈ hDC.brushes) :
    b.1 < hDC.freshHandle :=
  Nat.lt_succ_of_le
    (le_foldr_max _ _ (List.mem_cons_of_mem _ (List.mem_map_of_mem Prod.fst h)))

theorem find_append_fresh (l : List (HBRUSH × COLORREF)) (f : HBRUSH) (color : COLORREF)
    (h : ∀ b ∈ l, b.1 < f) :
    (l ++ [(f, color)]).find? (fun b => b.1 == f) = some (f, color) := by
  induction l with
  | nil => simp
  | cons b l ih =>
    have hb : b.1 ≠ f := Nat.ne_of_lt (h b (List.mem_cons_self _ _))
    have hb2 : (b.1 == f) = false := by simpa using hb
    rw [List.cons_append, List.find?_cons, hb2]
    exact ih (fun c hc => h c (List.mem_cons_of_mem _ hc))

theorem filter_append_fresh (l : List (HBRUSH × COLORREF)) (f : HBRUSH) (color : COLORREF)
    (h : ∀ b ∈ l, b.1 < f) :
    (l ++ [(f, color)]).filter (fun b => b.1 != f) = l := by
  rw [List.filter_append]
  have h1 : l.filter (fun b => b.1 != f) = l := by
    apply List.filter_eq_self.mpr
    intro b hb
    have : b.1 ≠ f := Nat.ne_of_lt (h b hb)
    simpa using this
  simp [h1]

/-- The bracket shared by the three `drawFilled` methods: create a solid
brush, select it, issue one drawing call, select the old brush again, delete
the new one.  Only the log changes, by one entry painted in that colour. -/
theorem fill_bracket (hDC : HDC) (color : COLORREF) (cmd : Command) :
    DeleteObject
        (SelectObject
          (issue (SelectObject (CreateSolidBrush hDC color).2 (CreateSolidBrush hDC color).1).2
            cmd)
          (SelectObject (CreateSolidBrush hDC color).2 (CreateSolidBrush hDC color).1).1).2
        (CreateSolidBrush hDC color).1
      = { hDC with issued := hDC.issued ++ [{ cmd := cmd, fill := some color }] } := by
  have hsel : hDC.selected ≠ hDC.freshHandle := Nat.ne_of_lt hDC.selected_lt_freshHandle
  have hmem := hDC.lt_freshHandle_of_mem
  simp only [CreateSolidBrush, SelectObject, issue, DeleteObject, fillColor, if_neg hsel,
    find_append_fresh _ _ _ hmem, filter_append_fresh _ _ _ hmem, Option.map_some']

theorem freshHandle_not_mem (hDC : HDC) : hDC.freshHandle ∉ hDC.brushes.map Prod.fst := by
  intro h
  obtain ⟨b, hb, hbe⟩ := List.mem_map.mp h
  exact absurd hbe (Nat.ne_of_lt (hDC.lt_freshHandle_of_mem b hb))

end HDC

/-! ## Translation -/

/-- C1: `moveFigure dx dy` adds `dx` to every stored x-coordinate and `dy` to
every stored y-coordinate of a Circle (its center), of a Square (`centerX`,
`centerY`) and of a Triangle (each of the three vertices); hence the
coordinate differences between any two Triangle vertices are unchanged. -/
theorem moveFigure_translates {K : Type} (c : Circle) (s : Square K) (t : Triangle)
    (dx dy : Int) :
    ((c.moveFigure dx dy).center.x = c.center.x + dx ∧
      (c.moveFigure dx dy).center.y = c.center.y + dy) ∧
    ((s.moveFigure dx dy).centerX = s.centerX + dx ∧
      (s.moveFigure dx dy).centerY = s.centerY + dy) ∧
    (∀ i : Fin 3, ((t.moveFigure dx dy).point i).x = (t.point i).x + dx ∧
      ((t.moveFigure dx dy).point i).y = (t.point i).y + dy) ∧
    (∀ i j : Fin 3,
      ((t.moveFigure dx dy).point i).x - ((t.moveFigure dx dy).point j).x
        = (t.point i).x - (t.point j).x ∧
      ((t.moveFigure dx dy).point i).y - ((t.moveFigure dx dy).point j).y
        = (t.point i).y - (t.point j).y) := by
  refine ⟨⟨rfl, rfl⟩, ⟨rfl, rfl⟩, ?_, ?_⟩
  · intro i
    fin_cases i <;> exact ⟨rfl, rfl⟩
  · intro i j
    fin_cases i <;> fin_cases j <;>
      simp [Triangle.moveFigure, Triangle.point]

/-! ## Rotation of a Circle -/

/-- C2: for every Circle and every angle, `Circle.rotate` changes nothing:
center and radius are as before, and `Circle.draw` issues the same ellipse on
every device context. -/
theorem Circle_rotate_noop (c : Circle) (θ : ℝ) :
    c.rotate θ = c ∧ (c.rotate θ).center = c.center ∧ (c.rotate θ).radius = c.radius ∧
    ∀ hDC : HDC, (c.rotate θ).draw hDC = c.draw hDC :=
  ⟨rfl, rfl, rfl, fun _ => rfl⟩


/-! ## Rotation of a Triangle by the zero angle -/

/-- C4: on every Triangle with integer vertices of any sign, `rotate 0` with
exact `cos` and `sin` leaves the three vertices unchanged; in particular the
Triangle (400,50), (350,200), (450,200) keeps these vertices. -/
theorem Triangle_rotate_zero (t : Triangle) :
    Triangle.rotate (Trig.mk Real.cos Real.sin) t 0 = t ∧
    Triangle.rotate (Trig.mk Real.cos Real.sin) ⟨⟨400, 50⟩, ⟨350, 200⟩, ⟨450, 200⟩⟩ 0
      = ⟨⟨400, 50⟩, ⟨350, 200⟩, ⟨450, 200⟩⟩ := by
  have h : ∀ p c : POINT, rotatePoint (Trig.mk Real.cos Real.sin) p c 0 = p := by
    intro p c
    have hx : (c.x : ℝ) + ((p.x - c.x : Int) : ℝ) = ((p.x : Int) : ℝ) := by push_cast; ring
    have hy : (c.y : ℝ) + ((p.y - c.y : Int) : ℝ) = ((p.y : Int) : ℝ) := by push_cast; ring
    simp only [rotatePoint, Real.cos_zero, Real.sin_zero, mul_one, mul_zero, sub_zero,
      zero_add, hx, hy, toInt_intCast]
  have h2 : ∀ u : Triangle, Triangle.rotate (Trig.mk Real.cos Real.sin) u 0 = u := by
    intro u
    simp only [Triangle.rotate, h]
  exact ⟨h2 t, h2 _⟩

/-! ## Drawing -/

/-- C8: for every Triangle with vertices p0, p1, p2, `draw` issues exactly one
open polyline through p0, p1, p2 in stored order, whose segments are p0-p1 and
p1-p2 only, whereas `drawFilled` issues exactly one closed polygon through the
same vertices in the same order, whose edges are p0-p1, p1-p2 and p2-p0; the
only call `drawFilled` issues is that polygon, not the polyline of `draw`. -/
theorem Triangle_outline_open_fill_closed (t : Triangle) (hDC : HDC) :
    (t.draw hDC).issued
      = hDC.issued ++ [{ cmd := Command.Polyline [t.p0, t.p1, t.p2], fill := hDC.fillColor }] ∧
    (Command.Polyline [t.p0, t.p1, t.p2]).segments = [(t.p0, t.p1), (t.p1, t.p2)] ∧
    (t.drawFilled hDC).issued
      = hDC.issued ++
          [{ cmd := Command.Polygon [t.p0, t.p1, t.p2], fill := some (RGB 0 0 255) }] ∧
    (Command.Polygon [t.p0, t.p1, t.p2]).segments
      = [(t.p0, t.p1), (t.p1, t.p2), (t.p2, t.p0)] := by
  refine ⟨rfl, rfl, ?_, rfl⟩
  have h := HDC.fill_bracket hDC (RGB 0 0 255) (Command.Polygon [t.p0, t.p1, t.p2])
  have h2 : t.drawFilled hDC
      = { hDC with issued := hDC.issued ++
          [{ cmd := Command.Polygon [t.p0, t.p1, t.p2], fill := some (RGB 0 0 255) }] } := by
    rw [← h]
    rfl
  rw [h2]

/-- C9: for every shape of any variant and every state of the device context,
`drawFilled` issues the drawing call of the shape painted with a solid brush
of the fixed colour of the variant (Circle RGB(255,0,0), Square RGB(0,255,0),
Triangle RGB(0,0,255)); on return the selected brush is the one selected on
entry, and the temporary brush is deleted: its handle is not in the table of
live brushes, which is the table found on entry. -/
theorem drawFilled_restores_brush {K : Type} [LinearOrderedField K] [FloorRing K]
    (T : Trig K) (sh : Shape K) (hDC : HDC) :
    (sh.drawFilled T hDC).selected = hDC.selected ∧
    (sh.drawFilled T hDC).brushes = hDC.brushes ∧
    hDC.freshHandle ∉ (sh.drawFilled T hDC).brushes.map Prod.fst ∧
    (sh.drawFilled T hDC).issued = hDC.issued ++
      [match sh with
        | Shape.circle c =>
          { cmd := Command.Ellipse (c.center.x - c.radius) (c.center.y - c.radius)
              (c.center.x + c.radius) (c.center.y + c.radius),
            fill := some (RGB 255 0 0) }
        | Shape.square s =>
          { cmd := Command.Polygon (s.vertices T), fill := some (RGB 0 255 0) }
        | Shape.triangle t =>
          { cmd := Command.Polygon [t.p0, t.p1, t.p2], fill := some (RGB 0 0 255) }] := by
  cases sh with
  | circle c =>
    have h := HDC.fill_bracket hDC (RGB 255 0 0)
      (Command.Ellipse (c.center.x - c.radius) (c.center.y - c.radius)
        (c.center.x + c.radius) (c.center.y + c.radius))
    have h2 : (Shape.circle c : Shape K).drawFilled T hDC = _ := Eq.trans rfl h
    rw [h2]
    exact ⟨rfl, rfl, hDC.freshHandle_not_mem, rfl⟩
  | square s =>
    have h := HDC.fill_bracket hDC (RGB 0 255 0) (Command.Polygon (s.vertices T))
    have h2 : (Shape.square s : Shape K).drawFilled T hDC = _ := Eq.trans rfl h
    rw [h2]
    exact ⟨rfl, rfl, hDC.freshHandle_not_mem, rfl⟩
  | triangle t =>
    have h := HDC.fill_bracket hDC (RGB 0 0 255) (Command.Polygon [t.p0, t.p1, t.p2])
    have h2 : (Shape.triangle t : Shape K).drawFilled T hDC = _ := Eq.trans rfl h
    rw [h2]
    exact ⟨rfl, rfl, hDC.freshHandle_not_mem, rfl⟩

/-! ## Invariants under sequences of calls -/

theorem Circle_run_radius {K : Type} (calls : List (Call K)) (c : Circle) :
    (c.run calls).radius = c.radius := by
  induction calls generalizing c with
  | nil => rfl
  | cons call calls ih =>
    have h : c.run (call :: calls) = (c.apply call).run calls := rfl
    rw [h, ih]
    cases call <;> rfl

theorem Square_run_sideLength {K : Type} [LinearOrderedField K] (calls : List (Call K))
    (s : Square K) : (s.run calls).sideLength = s.sideLength := by
  induction calls generalizing s with
  | nil => rfl
  | cons call calls ih =>
    have h : s.run (call :: calls) = (s.apply call).run calls := rfl
    rw [h, ih]
    cases call <;> rfl

/-- C10: after every finite sequence of `moveFigure` and `rotate` calls with
arbitrary arguments, the radius of a Circle and the side length of a Square
are those given at construction; on a Square `moveFigure` never changes the
angle, and `rotate` never changes the center nor anything but the angle. -/
theorem radius_and_sideLength_invariant (calls : List (Call ℝ)) :
    (∀ (_center : POINT) (_radius : Int),
      (Circle.run { center := _center, radius := _radius } calls).radius = _radius) ∧
    (∀ _centerX _centerY _sideLength : Int,
      (Square.run (Square.new _centerX _centerY _sideLength) calls).sideLength
        = _sideLength) ∧
    (∀ (c : Circle), (c.run calls).radius = c.radius) ∧
    (∀ (s : Square ℝ), (s.run calls).sideLength = s.sideLength) ∧
    (∀ (s : Square ℝ) (dx dy : Int), (s.moveFigure dx dy).angle = s.angle) ∧
    (∀ (s : Square ℝ) (θ : ℝ), (s.rotate θ).centerX = s.centerX ∧
      (s.rotate θ).centerY = s.centerY ∧ (s.rotate θ).sideLength = s.sideLength ∧
      s.rotate θ = { s with angle := s.angle + θ }) :=
  ⟨fun _ _ => Circle_run_radius calls _, fun _ _ _ => Square_run_sideLength calls _,
    fun c => Circle_run_radius calls c, fun s => Square_run_sideLength calls s,
    fun _ _ _ => rfl, fun _ _ => ⟨rfl, rfl, rfl, rfl⟩⟩

/-! ## Rotation of a Triangle -/

theorem cos_arccos_three_fifths : Real.cos (Real.arccos (3 / 5)) = 3 / 5 :=
  Real.cos_arccos (by norm_num) (by norm_num)

theorem sin_arccos_three_fifths : Real.sin (Real.arccos (3 / 5)) = 4 / 5 := by
  rw [Real.sin_arccos, show (1 : ℝ) - (3 / 5) ^ 2 = (4 / 5) ^ 2 by norm_num]
  exact Real.sqrt_sq (by norm_num)

/-- The Triangle (7,4), (4,8), (1,2) turned by the angle whose cosine is 3/5
and whose sine is 4/5: the pivot is (4,4) and the exact images (5.8, 6.4),
(0.8, 6.4), (3.8, 0.4) are truncated to (5,6), (0,6), (3,0). -/
theorem rotate_seven_four :
    Triangle.rotate (Trig.mk Real.cos Real.sin) ⟨⟨7, 4⟩, ⟨4, 8⟩, ⟨1, 2⟩⟩ (Real.arccos (3 / 5))
      = ⟨⟨5, 6⟩, ⟨0, 6⟩, ⟨3, 0⟩⟩ := by
  have hc : Triangle.center ⟨⟨7, 4⟩, ⟨4, 8⟩, ⟨1, 2⟩⟩ = ⟨4, 4⟩ := by
    simp only [Triangle.center]
    rfl
  simp only [Triangle.rotate, hc, rotatePoint, cos_arccos_three_fifths, sin_arccos_three_fifths]
  norm_num [toInt]

/-- C5, as stated, fails: for the Triangle (7,4), (4,8), (1,2) and the angle
arccos (3/5) the centroid before the call is (4,4) and the centroid
recomputed after it is (2,4), so the x-coordinates differ by 2. -/
theorem centroid_shift_exceeds_one :
    ¬ (|(Triangle.rotate (Trig.mk Real.cos Real.sin) ⟨⟨7, 4⟩, ⟨4, 8⟩, ⟨1, 2⟩⟩
          (Real.arccos (3 / 5))).center.x - (Triangle.center ⟨⟨7, 4⟩, ⟨4, 8⟩, ⟨1, 2⟩⟩).x| ≤ 1 ∧
       |(Triangle.rotate (Trig.mk Real.cos Real.sin) ⟨⟨7, 4⟩, ⟨4, 8⟩, ⟨1, 2⟩⟩
          (Real.arccos (3 / 5))).center.y - (Triangle.center ⟨⟨7, 4⟩, ⟨4, 8⟩, ⟨1, 2⟩⟩).y| ≤ 1) := by
  rw [rotate_seven_four]
  decide

/-- C5, amended: for every Triangle and every angle, with exact `cos` and
`sin` and casts truncating toward zero, each coordinate of the centroid
recomputed after `rotate` (the truncated integer average of the three
vertices) differs from the centroid computed before the call by at most 2. -/
theorem centroid_shift_le_two (t : Triangle) (θ : ℝ) :
    |(Triangle.rotate (Trig.mk Real.cos Real.sin) t θ).center.x - t.center.x| ≤ 2 ∧
    |(Triangle.rotate (Trig.mk Real.cos Real.sin) t θ).center.y - t.center.y| ≤ 2 :=
  center_rotate_close t θ

/-- C11: for every Circle with center (cx, cy) and radius r, `draw` issues
exactly one drawing call, the ellipse with bounding box (cx-r, cy-r) -
(cx+r, cy+r), and changes nothing else of the device context; for the Circle
with center (100,150) and radius 75 the box is (25,75) - (175,225). -/
theorem Circle_draw_ellipse (c : Circle) (hDC : HDC) :
    c.draw hDC = { hDC with issued := hDC.issued ++
      [{ cmd := Command.Ellipse (c.center.x - c.radius) (c.center.y - c.radius)
            (c.center.x + c.radius) (c.center.y + c.radius),
         fill := hDC.fillColor }] } ∧
    (Circle.draw { center := { x := 100, y := 150 }, radius := 75 } hDC).issued
      = hDC.issued ++ [{ cmd := Command.Ellipse 25 75 175 225, fill := hDC.fillColor }] :=
  ⟨rfl, rfl⟩

theorem Square_run_moves_angle {K : Type} [LinearOrderedField K] (l : List (Int × Int))
    (s : Square K) : (s.run (moves l)).angle = s.angle := by
  induction l generalizing s with
  | nil => rfl
  | cons d l ih =>
    have h : s.run (moves (d :: l)) = (s.moveFigure d.1 d.2).run (moves l) := rfl
    rw [h, ih]
    rfl

theorem Square_vertices_angle_zero (s : Square ℝ) (h : s.angle = 0) :
    s.vertices (Trig.mk Real.cos Real.sin)
      = [ { x := s.centerX + Int.tdiv s.sideLength 2, y := s.centerY + Int.tdiv s.sideLength 2 },
          { x := s.centerX + Int.tdiv s.sideLength 2, y := s.centerY - Int.tdiv s.sideLength 2 },
          { x := s.centerX - Int.tdiv s.sideLength 2, y := s.centerY - Int.tdiv s.sideLength 2 },
          { x := s.centerX - Int.tdiv s.sideLength 2,
            y := s.centerY + Int.tdiv s.sideLength 2 } ] := by
  simp only [Square.vertices, h, Real.cos_zero, Real.sin_zero, mul_one, mul_zero, sub_zero,
    add_zero, zero_add, zero_sub, toInt_intCast, ← Int.cast_neg, Int.sub_eq_add_neg]

/-- C12: for every Square whose stored angle is 0, with center (cx, cy) and
h = sideLength / 2 truncated toward zero, `draw` issues one closed polygon
whose four vertices are, in order, (cx+h, cy+h), (cx+h, cy-h), (cx-h, cy-h),
(cx-h, cy+h).  The angle is 0 on every freshly constructed Square and stays 0
under any sequence of `moveFigure` calls; for Square(250,150,100) the vertices
are (300,200), (300,100), (200,100), (200,200). -/
theorem Square_draw_angle_zero (s : Square ℝ) (h : s.angle = 0) (hDC : HDC) :
    s.draw (Trig.mk Real.cos Real.sin) hDC = { hDC with issued := hDC.issued ++
      [{ cmd := Command.Polygon
          [ { x := s.centerX + Int.tdiv s.sideLength 2,
              y := s.centerY + Int.tdiv s.sideLength 2 },
            { x := s.centerX + Int.tdiv s.sideLength 2,
              y := s.centerY - Int.tdiv s.sideLength 2 },
            { x := s.centerX - Int.tdiv s.sideLength 2,
              y := s.centerY - Int.tdiv s.sideLength 2 },
            { x := s.centerX - Int.tdiv s.sideLength 2,
              y := s.centerY + Int.tdiv s.sideLength 2 } ],
         fill := hDC.fillColor }] } ∧
    (∀ l : List (Int × Int), (s.run (moves l)).angle = 0) ∧
    (∀ _centerX _centerY _sideLength : Int,
      (Square.new _centerX _centerY _sideLength : Square ℝ).angle = 0) ∧
    Square.vertices (Trig.mk Real.cos Real.sin) (Square.new 250 150 100)
      = [ { x := 300, y := 200 }, { x := 300, y := 100 }, { x := 200, y := 100 },
          { x := 200, y := 200 } ] := by
  refine ⟨?_, fun l => (Square_run_moves_angle l s).trans h, fun _ _ _ => rfl, ?_⟩
  · simp only [Square.draw, HDC.Polygon, HDC.issue, Square_vertices_angle_zero s h]
    rfl
  · rw [Square_vertices_angle_zero _ rfl]
    rfl

/-- C12 at the Square of the program, moved by (7, -3): the hypothesis holds
and the polygon drawn has the vertices (307,197), (307,97), (207,97),
(207,197). -/
theorem Square_draw_angle_zero_witness :
    ((Square.new 250 150 100 : Square ℝ).moveFigure 7 (-3)).angle = 0 ∧
    ((Square.new 250 150 100 : Square ℝ).moveFigure 7 (-3)).draw (Trig.mk Real.cos Real.sin)
        { selected := 0, brushes := [], issued := [] }
      = { selected := 0, brushes := [],
          issued := [{ cmd := Command.Polygon [ { x := 307, y := 197 }, { x := 307, y := 97 },
                        { x := 207, y := 97 }, { x := 207, y := 197 } ],
                       fill := none }] } :=
  ⟨rfl, (Square_draw_angle_zero ((Square.new 250 150 100 : Square ℝ).moveFigure 7 (-3)) rfl
    { selected := 0, brushes := [], issued := [] }).1⟩

/-! ## Composition of translations -/

/-- C18: for every shape of any variant and all integers a, b, c, d,
`moveFigure a b` followed by `moveFigure c d` leaves the shape in the same
state as one `moveFigure (a + c) (b + d)`; `moveFigure 0 0` leaves the state
unchanged; hence `moveFigure (-a) (-b)` undoes `moveFigure a b`. -/
theorem moveFigure_additive {K : Type} (sh : Shape K) (a b c d : Int) :
    (sh.moveFigure a b).moveFigure c d = sh.moveFigure (a + c) (b + d) ∧
    sh.moveFigure 0 0 = sh ∧
    (sh.moveFigure a b).moveFigure (-a) (-b) = sh := by
  cases sh with
  | circle s =>
    simp [Shape.moveFigure, Circle.moveFigure, add_assoc]
  | square s =>
    simp [Shape.moveFigure, Square.moveFigure, add_assoc]
  | triangle t =>
    simp [Shape.moveFigure, Triangle.moveFigure, add_assoc]

/-! ## The window procedure -/

theorem Circle_drawFilled_eq (c : Circle) (hDC : HDC) :
    c.drawFilled hDC = { hDC with issued := hDC.issued ++
      [{ cmd := Command.Ellipse (c.center.x - c.radius) (c.center.y - c.radius)
            (c.center.x + c.radius) (c.center.y + c.radius),
         fill := some (RGB 255 0 0) }] } :=
  Eq.trans rfl (HDC.fill_bracket hDC (RGB 255 0 0) _)

theorem Square_drawFilled_eq {K : Type} [LinearOrderedField K] [FloorRing K] (T : Trig K)
    (s : Square K) (hDC : HDC) :
    s.drawFilled T hDC = { hDC with issued := hDC.issued ++
      [{ cmd := Command.Polygon ((s.vertices T).take 4), fill := some (RGB 0 255 0) }] } :=
  Eq.trans rfl (HDC.fill_bracket hDC (RGB 0 255 0) _)

theorem Triangle_drawFilled_eq (t : Triangle) (hDC : HDC) :
    t.drawFilled hDC = { hDC with issued := hDC.issued ++
      [{ cmd := Command.Polygon [t.p0, t.p1, t.p2], fill := some (RGB 0 0 255) }] } :=
  Eq.trans rfl (HDC.fill_bracket hDC (RGB 0 0 255) _)

theorem Shape_drawFilled_frame {K : Type} [LinearOrderedField K] [FloorRing K] (T : Trig K)
    (sh : Shape K) (hDC : HDC) :
    (sh.drawFilled T hDC).selected = hDC.selected ∧
    (sh.drawFilled T hDC).brushes = hDC.brushes := by
  cases sh with
  | circle c =>
    have h : (Shape.circle c : Shape K).drawFilled T hDC = _ := Circle_drawFilled_eq c hDC
    rw [h]
    exact ⟨rfl, rfl⟩
  | square s =>
    have h : (Shape.square s : Shape K).drawFilled T hDC = _ := Square_drawFilled_eq T s hDC
    rw [h]
    exact ⟨rfl, rfl⟩
  | triangle t =>
    have h : (Shape.triangle t : Shape K).drawFilled T hDC = _ := Triangle_drawFilled_eq t hDC
    rw [h]
    exact ⟨rfl, rfl⟩

section Window

variable {K : Type} [LinearOrderedField K] [FloorRing K]

theorem drawFilledAt_eq (T : Trig K) (w : World K) (i : Nat) (sh : Shape K)
    (h : w.shapes[i]? = some sh) :
    w.drawFilledAt T i = some { w with hDC := sh.drawFilled T w.hDC } := by
  unfold World.drawFilledAt
  rw [h]

/-- The `WM_PAINT` branch on a vector that starts with the shapes `a`, `b`,
`c`: the three `drawFilled` calls run in this order between `BeginPaint` and
`EndPaint`. -/
theorem WindowProc_paint (T : Trig K) (w : World K) (a b c : Shape K) (rest : List (Shape K))
    (hs : w.shapes = a :: b :: c :: rest) (hwnd : HWND) (wParam : WPARAM) (lParam : LPARAM) :
    WindowProc T w hwnd WM_PAINT wParam lParam
      = some (0, { shapes := w.shapes,
                   hDC := c.drawFilled T (b.drawFilled T (a.drawFilled T w.hDC)),
                   painting := false,
                   calls := w.calls ++ [ApiCall.BeginPaint hwnd] ++ [ApiCall.EndPaint hwnd] }) := by
  have hne : WM_PAINT ≠ WM_CREATE := by decide
  unfold WindowProc
  rw [if_neg hne, if_pos rfl]
  dsimp only
  rw [drawFilledAt_eq T (w.BeginPaint hwnd) 0 a (by simp [World.BeginPaint, hs])]
  dsimp only
  rw [drawFilledAt_eq T _ 1 b (by simp [World.BeginPaint, hs])]
  dsimp only
  rw [drawFilledAt_eq T _ 2 c (by simp [World.BeginPaint, hs])]
  rfl

/-- With at least three shapes in the vector, a message other than `WM_CREATE`
is handled and leaves the vector as it is. -/
theorem WindowProc_keeps_shapes (T : Trig K) (w : World K) (h3 : 2 < w.shapes.length)
    (hwnd : HWND) (uMsg : UINT) (wParam : WPARAM) (lParam : LPARAM) (hm : uMsg ≠ WM_CREATE) :
    ∃ r, WindowProc T w hwnd uMsg wParam lParam = some r ∧ r.2.shapes = w.shapes := by
  by_cases hp : uMsg = WM_PAINT
  · obtain ⟨a, b, c, rest, hs⟩ : ∃ a b c rest, w.shapes = a :: b :: c :: rest := by
      match hw : w.shapes with
      | [] => rw [hw] at h3; simp at h3
      | [_] => rw [hw] at h3; simp at h3
      | [_, _] => rw [hw] at h3; simp at h3
      | a :: b :: c :: rest => exact ⟨a, b, c, rest, rfl⟩
    rw [hp, WindowProc_paint T w a b c rest hs]
    exact ⟨_, rfl, rfl⟩
  · unfold WindowProc
    rw [if_neg hm, if_neg hp]
    by_cases hd : uMsg = WM_DESTROY
    · rw [if_pos hd]
      exact ⟨_, rfl, rfl⟩
    · rw [if_neg hd]
      exact ⟨_, rfl, rfl⟩

theorem dispatchAll_keeps_shapes (T : Trig K) (msgs : List MSG) (w : World K)
    (h3 : 2 < w.shapes.length) (hm : ∀ m ∈ msgs, m.message ≠ WM_CREATE) :
    ∃ w2, dispatchAll T w msgs = some w2 ∧ w2.shapes = w.shapes := by
  induction msgs generalizing w with
  | nil => exact ⟨w, rfl, rfl⟩
  | cons m ms ih =>
    obtain ⟨r, hr, hs⟩ := WindowProc_keeps_shapes T w h3 m.hwnd m.message m.wParam m.lParam
      (hm m (List.mem_cons_self _ _))
    obtain ⟨w2, hw2, hs2⟩ := ih r.2 (by rw [hs]; exact h3)
      (fun x hx => hm x (List.mem_cons_of_mem _ hx))
    refine ⟨w2, ?_, hs2.trans hs⟩
    simp only [dispatchAll, hr]
    exact hw2

/-- The `WM_CREATE` branch on the empty vector. -/
theorem WindowProc_create (T : Trig K) (w : World K) (h0 : w.shapes = []) (hwnd : HWND)
    (wParam : WPARAM) (lParam : LPARAM) :
    WindowProc T w hwnd WM_CREATE wParam lParam
      = some (0, { w with shapes :=
          [ Shape.circle { center := { x := 100, y := 150 }, radius := 75 },
            Shape.square (Square.new 250 150 100),
            Shape.triangle { p0 := { x := 400, y := 50 }, p1 := { x := 350, y := 200 },
                             p2 := { x := 450, y := 200 } } ] }) := by
  unfold WindowProc
  rw [if_pos rfl]
  simp only [h0, List.nil_append, List.cons_append]

end Window

/-- C13: starting from the empty shape collection, handling `WM_CREATE` leaves
the collection holding exactly three shapes in this order: the Circle with
center (100,150) and radius 75, the Square with center (250,150), side 100 and
angle 0, the Triangle with vertices (400,50), (350,200), (450,200); every
later sequence of repaint, teardown or unhandled messages is handled and
leaves the collection as it is. -/
theorem WindowProc_collection {K : Type} [LinearOrderedField K] [FloorRing K] (T : Trig K)
    (w : World K) (h0 : w.shapes = []) (hwnd : HWND) (wParam : WPARAM) (lParam : LPARAM) :
    ∃ w1, WindowProc T w hwnd WM_CREATE wParam lParam = some (0, w1) ∧
      w1.shapes =
        [ (Shape.circle { center := { x := 100, y := 150 }, radius := 75 } : Shape K),
          Shape.square { centerX := 250, centerY := 150, sideLength := 100, angle := 0 },
          Shape.triangle { p0 := { x := 400, y := 50 }, p1 := { x := 350, y := 200 },
                           p2 := { x := 450, y := 200 } } ] ∧
      ∀ msgs : List MSG, (∀ m ∈ msgs, m.message ≠ WM_CREATE) →
        ∃ w2, dispatchAll T w1 msgs = some w2 ∧ w2.shapes = w1.shapes := by
  refine ⟨_, rfl, ?_, ?_⟩
  · simp only [h0, List.nil_append, List.cons_append, Square.new]
  · intro msgs hm
    refine dispatchAll_keeps_shapes T msgs _ ?_ hm
    simp only [h0, List.nil_append, List.cons_append, List.length_cons, List.length_nil]
    decide

/-- C13 on the rationals, from the empty collection: after `WM_CREATE`, then a
repaint, an unhandled message and a teardown, the collection holds the three
shapes of the program. -/
theorem WindowProc_collection_witness :
    (World.mk [] { selected := 0, brushes := [], issued := [] } false [] : World ℚ).shapes = [] ∧
    ∃ w1 w2 : World ℚ,
      WindowProc (Trig.mk (fun _ => 1) (fun _ => 0))
          (World.mk [] { selected := 0, brushes := [], issued := [] } false []) 0 WM_CREATE 0 0
        = some (0, w1) ∧
      dispatchAll (Trig.mk (fun _ => 1) (fun _ => 0)) w1
          [ { hwnd := 0, message := WM_PAINT, wParam := 0, lParam := 0 },
            { hwnd := 0, message := 5, wParam := 0, lParam := 0 },
            { hwnd := 0, message := WM_DESTROY, wParam := 0, lParam := 0 } ] = some w2 ∧
      w2.shapes =
        [ (Shape.circle { center := { x := 100, y := 150 }, radius := 75 } : Shape ℚ),
          Shape.square { centerX := 250, centerY := 150, sideLength := 100, angle := 0 },
          Shape.triangle { p0 := { x := 400, y := 50 }, p1 := { x := 350, y := 200 },
                           p2 := { x := 450, y := 200 } } ] := by
  refine ⟨rfl, ?_⟩
  obtain ⟨w1, h1, h2, h3⟩ := WindowProc_collection (Trig.mk (fun _ => (1 : ℚ)) (fun _ => 0))
    (World.mk [] { selected := 0, brushes := [], issued := [] } false []) rfl 0 0 0
  obtain ⟨w2, h4, h5⟩ := h3
    [ { hwnd := 0, message := WM_PAINT, wParam := 0, lParam := 0 },
      { hwnd := 0, message := 5, wParam := 0, lParam := 0 },
      { hwnd := 0, message := WM_DESTROY, wParam := 0, lParam := 0 } ] (by decide)
  exact ⟨w1, w2, h1, h4, h5.trans h2⟩

/-- The three drawing calls of a repaint of the program's shapes, painted
with their colours. -/
theorem drawFilled_three (hDC : HDC) :
    (Shape.triangle (Triangle.mk { x := 400, y := 50 } { x := 350, y := 200 }
        { x := 450, y := 200 }) : Shape ℝ).drawFilled (Trig.mk Real.cos Real.sin)
      ((Shape.square (Square.new 250 150 100) : Shape ℝ).drawFilled (Trig.mk Real.cos Real.sin)
        ((Shape.circle { center := { x := 100, y := 150 }, radius := 75 } : Shape ℝ).drawFilled
          (Trig.mk Real.cos Real.sin) hDC))
      = { hDC with issued := hDC.issued ++
          [ { cmd := Command.Ellipse 25 75 175 225, fill := some (RGB 255 0 0) },
            { cmd := Command.Polygon [ { x := 300, y := 200 }, { x := 300, y := 100 },
                { x := 200, y := 100 }, { x := 200, y := 200 } ],
              fill := some (RGB 0 255 0) },
            { cmd := Command.Polygon [ { x := 400, y := 50 }, { x := 350, y := 200 },
                { x := 450, y := 200 } ],
              fill := some (RGB 0 0 255) } ] } := by
  simp only [Shape.drawFilled, Circle_drawFilled_eq, Square_drawFilled_eq,
    Triangle_drawFilled_eq, Square_vertices_angle_zero (Square.new 250 150 100) rfl,
    List.append_assoc, List.singleton_append]
  rfl

/-- C15: with the shape collection as populated by `WM_CREATE` from the empty
collection, the three accesses `shapes[0]`, `shapes[1]`, `shapes[2]` are in
bounds (the Circle, the Square, the Triangle), and handling `WM_PAINT` calls
`drawFilled` on exactly these three shapes, in this order and once each,
after `BeginPaint` and before `EndPaint`: the device context is handed out
during the three calls and taken back after them, and the log of drawing calls
grows by the red ellipse, the green square and the blue triangle, in this
order. -/
theorem WindowProc_paint_three (w : World ℝ) (h0 : w.shapes = []) (hwnd : HWND)
    (wParam : WPARAM) (lParam : LPARAM) (hwnd2 : HWND) (wParam2 : WPARAM) (lParam2 : LPARAM) :
    ∃ w1, WindowProc (Trig.mk Real.cos Real.sin) w hwnd WM_CREATE wParam lParam = some (0, w1) ∧
      w1.shapes.length = 3 ∧
      w1.shapes[0]? = some (Shape.circle { center := { x := 100, y := 150 }, radius := 75 }) ∧
      w1.shapes[1]? = some (Shape.square (Square.new 250 150 100)) ∧
      w1.shapes[2]? = some (Shape.triangle (Triangle.mk { x := 400, y := 50 }
        { x := 350, y := 200 } { x := 450, y := 200 })) ∧
      ∃ a b c : World ℝ,
        (w1.BeginPaint hwnd2).drawFilledAt (Trig.mk Real.cos Real.sin) 0 = some a ∧
        a.drawFilledAt (Trig.mk Real.cos Real.sin) 1 = some b ∧
        b.drawFilledAt (Trig.mk Real.cos Real.sin) 2 = some c ∧
        WindowProc (Trig.mk Real.cos Real.sin) w1 hwnd2 WM_PAINT wParam2 lParam2
          = some (0, c.EndPaint hwnd2) ∧
        (w1.BeginPaint hwnd2).painting = true ∧ a.painting = true ∧ b.painting = true ∧
        c.painting = true ∧ (c.EndPaint hwnd2).painting = false ∧
        (c.EndPaint hwnd2).calls
          = w1.calls ++ [ApiCall.BeginPaint hwnd2, ApiCall.EndPaint hwnd2] ∧
        (c.EndPaint hwnd2).shapes = w1.shapes ∧
        (c.EndPaint hwnd2).hDC = { w1.hDC with issued := w1.hDC.issued ++
          [ { cmd := Command.Ellipse 25 75 175 225, fill := some (RGB 255 0 0) },
            { cmd := Command.Polygon [ { x := 300, y := 200 }, { x := 300, y := 100 },
                { x := 200, y := 100 }, { x := 200, y := 200 } ],
              fill := some (RGB 0 255 0) },
            { cmd := Command.Polygon [ { x := 400, y := 50 }, { x := 350, y := 200 },
                { x := 450, y := 200 } ],
              fill := some (RGB 0 0 255) } ] } := by
  refine ⟨_, WindowProc_create _ w h0 hwnd wParam lParam, rfl, rfl, rfl, rfl, ?_⟩
  refine ⟨_, _, _, drawFilledAt_eq _ _ 0 _ rfl, drawFilledAt_eq _ _ 1 _ rfl,
    drawFilledAt_eq _ _ 2 _ rfl, ?_, rfl, rfl, rfl, rfl, rfl, ?_, rfl, ?_⟩
  · rw [WindowProc_paint _ _ _ _ _ [] rfl]
    rfl
  · simp only [World.EndPaint, World.BeginPaint, List.append_assoc, List.singleton_append]
  · exact drawFilled_three w.hDC

/-- C15 from the empty collection and an empty device context: after
`WM_CREATE`, a repaint is handled, issues the three filled shapes in order
and calls `BeginPaint` and `EndPaint` once each. -/
theorem WindowProc_paint_three_witness :
    (World.mk [] { selected := 0, brushes := [], issued := [] } false [] : World ℝ).shapes = [] ∧
    ∃ w1 w2 : World ℝ,
      WindowProc (Trig.mk Real.cos Real.sin)
          (World.mk [] { selected := 0, brushes := [], issued := [] } false []) 7 WM_CREATE 0 0
        = some (0, w1) ∧
      WindowProc (Trig.mk Real.cos Real.sin) w1 7 WM_PAINT 0 0 = some (0, w2) ∧
      w2.calls = [ApiCall.BeginPaint 7, ApiCall.EndPaint 7] ∧
      w2.hDC = { selected := 0, brushes := [], issued :=
          [ { cmd := Command.Ellipse 25 75 175 225, fill := some (RGB 255 0 0) },
            { cmd := Command.Polygon [ { x := 300, y := 200 }, { x := 300, y := 100 },
                { x := 200, y := 100 }, { x := 200, y := 200 } ],
              fill := some (RGB 0 255 0) },
            { cmd := Command.Polygon [ { x := 400, y := 50 }, { x := 350, y := 200 },
                { x := 450, y := 200 } ],
              fill := some (RGB 0 0 255) } ] } := by
  refine ⟨rfl, ?_⟩
  obtain ⟨w1, h1, _, _, _, _, a, b, c, _, _, _, h2, _, _, _, _, _, h3, _, h4⟩ :=
    WindowProc_paint_three (World.mk [] { selected := 0, brushes := [], issued := [] } false [])
      rfl 7 0 0 7 0 0
  have h5 := WindowProc_create (Trig.mk Real.cos Real.sin)
    (World.mk [] { selected := 0, brushes := [], issued := [] } false []) rfl 7 0 0
  rw [h1] at h5
  have e : w1 = _ := (Prod.mk.inj (Option.some.inj h5)).2
  refine ⟨w1, _, h1, h2, ?_, ?_⟩
  · rw [h3, e]
    rfl
  · rw [h4, e]
    rfl

/-! ## Truncation -/

section Truncation

variable {K : Type} [LinearOrderedField K] [FloorRing K]

theorem toInt_of_nonneg (v : K) (h : 0 ≤ v) : toInt v = ⌊v⌋ := if_pos h

theorem toInt_of_nonpos (v : K) (h : v ≤ 0) : toInt v = ⌈v⌉ := by
  rcases lt_or_eq_of_le h with h1 | h1
  · exact if_neg (not_le.mpr h1)
  · rw [h1, toInt_of_nonneg 0 le_rfl, Int.floor_zero, Int.ceil_zero]

theorem toInt_eq_of_nonneg (v : K) (n : Int) (h0 : 0 ≤ v) (h1 : (n : K) ≤ v)
    (h2 : v < (n : K) + 1) : toInt v = n := by
  rw [toInt_of_nonneg v h0]
  exact Int.floor_eq_iff.mpr ⟨h1, h2⟩

theorem toInt_eq_of_nonpos (v : K) (n : Int) (h0 : v ≤ 0) (h1 : (n : K) - 1 < v)
    (h2 : v ≤ (n : K)) : toInt v = n := by
  rw [toInt_of_nonpos v h0]
  exact Int.ceil_eq_iff.mpr ⟨h1, h2⟩

/-- The cast never moves a value away from zero. -/
theorem abs_toInt_le (v : K) : |((toInt v : Int) : K)| ≤ |v| := by
  rcases le_total 0 v with h | h
  · rw [toInt_of_nonneg v h, abs_of_nonneg h,
      abs_of_nonneg (by exact_mod_cast Int.floor_nonneg.mpr h)]
    exact Int.floor_le v
  · have hc : ⌈v⌉ ≤ 0 := Int.ceil_le.mpr (by simpa using h)
    rw [toInt_of_nonpos v h, abs_of_nonpos h, abs_of_nonpos (by exact_mod_cast hc)]
    exact neg_le_neg (Int.le_ceil v)

/-- Adding an integer commutes with the cast when the value stays on the same
side of zero. -/
theorem toInt_add_intCast (v : K) (d : Int) (h : sameSide v (v + (d : K))) :
    toInt (v + (d : K)) = toInt v + d := by
  rcases h with ⟨h1, h2⟩ | ⟨h1, h2⟩
  · rw [toInt_of_nonneg _ h1, toInt_of_nonneg _ h2, Int.floor_add_int]
  · rw [toInt_of_nonpos _ h1, toInt_of_nonpos _ h2, Int.ceil_add_int]

end Truncation

/-- Integer division by 3 never moves the quotient away from zero. -/
theorem tdiv_three_toward_zero (a : Int) :
    |3 * Int.tdiv a 3| ≤ |a| ∧ |a - 3 * Int.tdiv a 3| < 3 := by
  rcases le_total 0 a with h | h
  · rw [Int.tdiv_eq_ediv h (by decide), abs_of_nonneg h, abs_of_nonneg (by omega),
      abs_of_nonneg (by omega)]
    constructor <;> omega
  · have h2 : a = -(-a) := by omega
    have h3 : Int.tdiv a 3 = -((-a) / 3) := by
      rw [h2, Int.neg_tdiv, Int.tdiv_eq_ediv (by omega) (by decide)]
      simp
    rw [h3, abs_of_nonpos h, abs_of_nonpos (by omega), abs_of_nonpos (by omega)]
    constructor <;> omega

/-- Integer division by 3 commutes with adding a multiple of 3 when the
dividend stays on the same side of zero. -/
theorem tdiv_three_add (a d : Int) (h : sameSide a (a + 3 * d)) :
    Int.tdiv (a + 3 * d) 3 = Int.tdiv a 3 + d := by
  rcases h with ⟨h1, h2⟩ | ⟨h1, h2⟩
  · rw [Int.tdiv_eq_ediv h1 (by decide), Int.tdiv_eq_ediv h2 (by decide)]
    omega
  · have e1 : Int.tdiv a 3 = -((-a) / 3) := by
      have h3 : a = -(-a) := by omega
      rw [h3, Int.neg_tdiv, Int.tdiv_eq_ediv (by omega) (by decide)]
      simp
    have e2 : Int.tdiv (a + 3 * d) 3 = -((-(a + 3 * d)) / 3) := by
      have h3 : a + 3 * d = -(-(a + 3 * d)) := by omega
      rw [h3, Int.neg_tdiv, Int.tdiv_eq_ediv (by omega) (by decide)]
      simp
    rw [e1, e2]
    omega


/-! ## Square vertices and the rotation helper -/

theorem cos_arccos_five_thirteenths : Real.cos (Real.arccos (5 / 13)) = 5 / 13 :=
  Real.cos_arccos (by norm_num) (by norm_num)

theorem sin_arccos_five_thirteenths : Real.sin (Real.arccos (5 / 13)) = 12 / 13 := by
  rw [Real.sin_arccos, show (1 : ℝ) - (5 / 13) ^ 2 = (12 / 13) ^ 2 by norm_num]
  exact Real.sqrt_sq (by norm_num)

section SquareVertices

variable {K : Type} [LinearOrderedField K] [FloorRing K]

/-- `Square::draw` truncates each offset and then adds the center. -/
theorem Square_vertices_eq_offsets (T : Trig K) (s : Square K) :
    s.vertices T
      = (s.offsets T).map (fun o => { x := s.centerX + toInt o.1, y := s.centerY + toInt o.2 }) :=
  rfl

/-- The helper `rotatePoint` on the axis-aligned corners adds the center to
each offset and then truncates. -/
theorem Square_corners_rotated (T : Trig K) (s : Square K) :
    s.corners.map (fun p => rotatePoint T p { x := s.centerX, y := s.centerY } s.angle)
      = (s.offsets T).map
          (fun o => { x := toInt ((s.centerX : K) + o.1), y := toInt ((s.centerY : K) + o.2) }) := by
  have e1 : ∀ c h : Int, c + h - c = h := fun c h => by omega
  have e2 : ∀ c h : Int, c - h - c = -h := fun c h => by omega
  simp only [Square.corners, Square.offsets, List.map_cons, List.map_nil, rotatePoint, e1, e2,
    Int.cast_neg, neg_mul, sub_neg_eq_add, ← sub_eq_add_neg]

end SquareVertices

/-- C16, as stated, fails: for the Square of the program, center (250,150) and
side 100, turned to the angle arccos (5/13), `Square::draw` computes
250 + trunc(-350/13) = 224 for the x-coordinate of its first vertex, while
`rotatePoint` on the corner (300,200) returns trunc(250 - 350/13) = 223. -/
theorem Square_vertices_ne_rotatePoint :
    Square.vertices (Trig.mk Real.cos Real.sin) (Square.mk 250 150 100 (Real.arccos (5 / 13)))
      ≠ (Square.corners (Square.mk 250 150 100 (Real.arccos (5 / 13)))).map
          (fun p => rotatePoint (Trig.mk Real.cos Real.sin) p { x := 250, y := 150 }
            (Real.arccos (5 / 13))) := by
  intro h
  have h2 := Square_corners_rotated (Trig.mk Real.cos Real.sin)
    (Square.mk 250 150 100 (Real.arccos (5 / 13)))
  simp only [] at h2
  rw [h2, Square_vertices_eq_offsets] at h
  have ht : Int.tdiv 100 2 = 50 := rfl
  have hx := congrArg (fun l : List POINT => (l.map POINT.x).head?) h
  simp only [Square.offsets, ht, cos_arccos_five_thirteenths, sin_arccos_five_thirteenths,
    List.map_cons, List.head?_cons, Option.some.injEq] at hx
  have e1 : toInt ((50 : Int) * (5 / 13 : ℝ) - (50 : Int) * (12 / 13 : ℝ)) = -26 :=
    toInt_eq_of_nonpos _ _ (by norm_num) (by norm_num) (by norm_num)
  have e2 : toInt (((250 : Int) : ℝ) + ((50 : Int) * (5 / 13 : ℝ) - (50 : Int) * (12 / 13 : ℝ)))
      = 223 :=
    toInt_eq_of_nonneg _ _ (by norm_num) (by norm_num) (by norm_num)
  rw [e1, e2] at hx
  exact absurd hx (by decide)

/-! ## Translation and rotation of a Triangle -/

section MoveRotate

variable {K : Type} [LinearOrderedField K] [FloorRing K]

/-- The pivot moves with the Triangle when neither coordinate sum changes
side of zero. -/
theorem Triangle_center_moveFigure (t : Triangle) (dx dy : Int)
    (hx : sameSide (t.p0.x + t.p1.x + t.p2.x) (t.p0.x + t.p1.x + t.p2.x + 3 * dx))
    (hy : sameSide (t.p0.y + t.p1.y + t.p2.y) (t.p0.y + t.p1.y + t.p2.y + 3 * dy)) :
    (t.moveFigure dx dy).center = { x := t.center.x + dx, y := t.center.y + dy } := by
  have ex : t.p0.x + dx + (t.p1.x + dx) + (t.p2.x + dx) = t.p0.x + t.p1.x + t.p2.x + 3 * dx := by
    ring
  have ey : t.p0.y + dy + (t.p1.y + dy) + (t.p2.y + dy) = t.p0.y + t.p1.y + t.p2.y + 3 * dy := by
    ring
  simp only [Triangle.center, Triangle.moveFigure, ex, ey, tdiv_three_add _ _ hx,
    tdiv_three_add _ _ hy]

end MoveRotate

/-! ## Rounding to binary64 -/

section Rounding

variable {K : Type} [LinearOrderedField K] [FloorRing K]

theorem roundHalfEven_intCast (n : Int) : roundHalfEven (n : K) = n := by
  simp [roundHalfEven]

theorem roundHalfEven_eq (y : K) (m : Int)
    (h : |y - (m : K)| < 1 / 2 ∨ (|y - (m : K)| = 1 / 2 ∧ m % 2 = 0)) :
    roundHalfEven y = m := by
  unfold roundHalfEven
  rcases le_or_lt (m : K) y with hmy | hmy
  · -- y = m + d, 0 ≤ d ≤ 1/2
    have hd : y - (m : K) ≤ 1 / 2 := by
      rcases h with h | ⟨h, _⟩
      · exact le_of_lt (lt_of_le_of_lt (le_abs_self _) h)
      · exact le_trans (le_abs_self _) (le_of_eq h)
    have hf : ⌊y⌋ = m := Int.floor_eq_iff.mpr ⟨hmy, by linarith⟩
    rw [hf]
    rcases h with h | ⟨h, he⟩
    · rw [if_pos (lt_of_le_of_lt (le_abs_self _) h)]
    · have h2 : y - (m : K) = 1 / 2 := by rw [← h, abs_of_nonneg (sub_nonneg.mpr hmy)]
      rw [if_neg (by rw [h2]; exact lt_irrefl _), if_neg (by rw [h2]; exact lt_irrefl _),
        if_pos he]
  · -- y = m - d, 0 < d ≤ 1/2
    have hn : (m : K) - y ≤ |y - (m : K)| := by
      rw [abs_sub_comm]
      exact le_abs_self _
    have hd : (m : K) - y ≤ 1 / 2 := by
      rcases h with h | ⟨h, _⟩
      · exact le_of_lt (lt_of_le_of_lt hn h)
      · exact le_trans hn (le_of_eq h)
    have hf : ⌊y⌋ = m - 1 := Int.floor_eq_iff.mpr ⟨by push_cast; linarith, by push_cast; linarith⟩
    rw [hf]
    push_cast
    rcases h with h | ⟨h, he⟩
    · have h3 : (m : K) - y < 1 / 2 := lt_of_le_of_lt hn h
      rw [if_neg (by linarith), if_pos (by linarith)]
      ring
    · have h2 : (m : K) - y = 1 / 2 := by
        rw [← h, abs_of_neg (sub_neg.mpr hmy)]
        ring
      have ho : ¬ ((m - 1) % 2 = 0) := by omega
      rw [if_neg (by linarith), if_neg (by linarith), if_neg ho]
      ring

theorem ulpExp_eq (x : K) (e : Int) (he : -1074 ≤ e) (h1 : (2 : K) ^ (e + 52) ≤ |x|)
    (h2 : |x| < (2 : K) ^ (e + 53)) : ulpExp x = e := by
  have hpos : 0 < |x| := lt_of_lt_of_le (zpow_pos (by norm_num) _) h1
  have hl : Int.log 2 |x| = e + 52 := by
    apply le_antisymm
    · have := (Int.lt_zpow_iff_log_lt (b := 2) (by norm_num) hpos (x := e + 53)).mp
        (by exact_mod_cast h2)
      omega
    · exact (Int.zpow_le_iff_le_log (b := 2) (by norm_num) hpos).mp (by exact_mod_cast h1)
  unfold ulpExp
  rw [hl]
  omega

theorem rnd64_zero : rnd64 (0 : K) = 0 := by
  simp [rnd64, roundHalfEven]

theorem rnd64_of_nonneg (x : K) (e m : Int) (hx : 0 ≤ x) (he : -1074 ≤ e)
    (h1 : (2 : K) ^ (e + 52) ≤ x) (h2 : x < (2 : K) ^ (e + 53))
    (hm : |x / 2 ^ e - (m : K)| < 1 / 2 ∨ (|x / 2 ^ e - (m : K)| = 1 / 2 ∧ m % 2 = 0)) :
    rnd64 x = (m : K) * 2 ^ e := by
  have ha : |x| = x := abs_of_nonneg hx
  have hu : ulpExp x = e := ulpExp_eq x e he (by rw [ha]; exact h1) (by rw [ha]; exact h2)
  unfold rnd64
  rw [if_pos hx, hu, ha, roundHalfEven_eq _ m hm]

theorem rnd64_grid (m e : Int) (he : -1074 ≤ e) (hm : |m| < 2 ^ 53) :
    rnd64 ((m : K) * 2 ^ e) = (m : K) * 2 ^ e := by
  rcases eq_or_ne m 0 with rfl | hm0
  · simp [rnd64_zero]
  have h2pos : ∀ z : Int, (0 : K) < 2 ^ z := fun z => zpow_pos (by norm_num) z
  have habs : |(m : K) * 2 ^ e| = ((|m| : Int) : K) * 2 ^ e := by
    rw [abs_mul, abs_of_pos (h2pos e), Int.cast_abs]
  have hpos : 0 < |(m : K) * 2 ^ e| := by
    rw [habs]
    exact mul_pos (by exact_mod_cast abs_pos.mpr hm0) (h2pos e)
  have hlt : |(m : K) * 2 ^ e| < (2 : K) ^ (e + 53) := by
    rw [habs, add_comm, zpow_add₀ (by norm_num : (2 : K) ≠ 0)]
    apply mul_lt_mul_of_pos_right _ (h2pos e)
    rw [show (2 : K) ^ (53 : Int) = ((2 ^ 53 : Int) : K) by norm_num]
    exact_mod_cast hm
  have hlog : Int.log 2 |(m : K) * 2 ^ e| < e + 53 :=
    (Int.lt_zpow_iff_log_lt (b := 2) (by norm_num) hpos).mp (by exact_mod_cast hlt)
  have hu : ulpExp ((m : K) * 2 ^ e) ≤ e := by
    unfold ulpExp
    exact max_le (by omega) he
  obtain ⟨n, hn⟩ : ∃ n : ℕ, e = ulpExp ((m : K) * 2 ^ e) + n :=
    ⟨(e - ulpExp ((m : K) * 2 ^ e)).toNat, by omega⟩
  have hq : |(m : K) * 2 ^ e| / 2 ^ ulpExp ((m : K) * 2 ^ e) = ((|m| * 2 ^ n : Int) : K) := by
    rw [habs]
    nth_rewrite 1 [hn]
    rw [zpow_add₀ (by norm_num : (2 : K) ≠ 0), zpow_natCast]
    push_cast
    field_simp
    ring
  have hr : ((|m| * 2 ^ n : Int) : K) * 2 ^ ulpExp ((m : K) * 2 ^ e) = ((|m| : Int) : K) * 2 ^ e := by
    nth_rewrite 2 [hn]
    rw [zpow_add₀ (by norm_num : (2 : K) ≠ 0), zpow_natCast]
    push_cast
    ring
  unfold rnd64
  rw [hq, roundHalfEven_intCast, hr]
  have h2e : (0 : K) < 2 ^ e := h2pos e
  split
  · rename_i h0
    have : (0 : K) ≤ (m : K) := by
      by_contra hneg
      have := mul_neg_of_neg_of_pos (not_le.mp hneg) h2e
      linarith
    have hm' : 0 ≤ m := by exact_mod_cast this
    rw [abs_of_nonneg hm']
  · rename_i h0
    have : (m : K) < 0 := by
      by_contra hnn
      exact h0 (mul_nonneg (not_lt.mp hnn) (le_of_lt h2e))
    have hm' : m < 0 := by exact_mod_cast this
    rw [abs_of_neg hm']
    push_cast
    ring

theorem rnd64_neg (x : K) : rnd64 (-x) = -rnd64 x := by
  rcases lt_trichotomy x 0 with h | h | h
  · have hu : ulpExp (-x) = ulpExp x := by unfold ulpExp; rw [abs_neg]
    unfold rnd64
    rw [if_pos (by linarith : (0 : K) ≤ -x), if_neg (not_le.mpr h), hu, abs_neg, neg_neg]
  · rw [h, neg_zero, rnd64_zero, neg_zero]
  · have hu : ulpExp (-x) = ulpExp x := by unfold ulpExp; rw [abs_neg]
    unfold rnd64
    rw [if_neg (by linarith : ¬ (0 : K) ≤ -x), if_pos (le_of_lt h), hu, abs_neg]

theorem floor_le_roundHalfEven (y : K) : ⌊y⌋ ≤ roundHalfEven y := by
  unfold roundHalfEven
  split
  · exact le_rfl
  · split
    · omega
    · split <;> omega

theorem roundHalfEven_le_ceil (y : K) : roundHalfEven y ≤ ⌈y⌉ := by
  unfold roundHalfEven
  split
  · exact Int.floor_le_ceil y
  · rename_i h
    have hne : (⌊y⌋ : K) ≠ y := by
      intro he
      rw [he, sub_self] at h
      exact h (by norm_num)
    have hlt : (⌊y⌋ : K) < y := lt_of_le_of_ne (Int.floor_le y) hne
    have hc : ⌊y⌋ + 1 ≤ ⌈y⌉ := by
      have : ⌊y⌋ < ⌈y⌉ := Int.lt_ceil.mpr hlt
      omega
    split
    · exact hc
    · split
      · exact Int.floor_le_ceil y
      · exact hc

/-- Rounding a value of magnitude below 2^53 to binary64 never passes the two
integers that enclose it. -/
theorem rnd64_between_of_nonneg (x : K) (h0 : 0 ≤ x) (hx : x < 2 ^ 53) :
    roundsWithin rnd64 x := by
  rcases eq_or_lt_of_le h0 with rfl | hpos
  · simp [roundsWithin, rnd64_zero]
  have ha : |x| = x := abs_of_nonneg h0
  have hlog : Int.log 2 |x| < 53 := by
    rw [ha]
    exact (Int.lt_zpow_iff_log_lt (b := 2) (by norm_num) hpos).mp (by exact_mod_cast hx)
  have hu : ulpExp x ≤ 0 := by
    unfold ulpExp
    exact max_le (by omega) (by norm_num)
  obtain ⟨n, hn⟩ : ∃ n : ℕ, ulpExp x = -(n : Int) := ⟨(-ulpExp x).toNat, by omega⟩
  have h2n : (0 : K) < 2 ^ n := pow_pos (by norm_num) n
  have hy : |x| / 2 ^ ulpExp x = x * 2 ^ n := by
    rw [ha, hn, zpow_neg, zpow_natCast, div_inv_eq_mul]
  have hz : (2 : K) ^ ulpExp x = (2 ^ n)⁻¹ := by rw [hn, zpow_neg, zpow_natCast]
  have hlo : ⌊x⌋ * 2 ^ n ≤ roundHalfEven (x * 2 ^ n) := by
    refine le_trans (Int.le_floor.mpr ?_) (floor_le_roundHalfEven _)
    push_cast
    exact mul_le_mul_of_nonneg_right (Int.floor_le x) (le_of_lt h2n)
  have hhi : roundHalfEven (x * 2 ^ n) ≤ ⌈x⌉ * 2 ^ n := by
    refine le_trans (roundHalfEven_le_ceil _) (Int.ceil_le.mpr ?_)
    push_cast
    exact mul_le_mul_of_nonneg_right (Int.le_ceil x) (le_of_lt h2n)
  have hlo2 : ((⌊x⌋ * 2 ^ n : Int) : K) ≤ (roundHalfEven (x * 2 ^ n) : K) := by exact_mod_cast hlo
  have hhi2 : (roundHalfEven (x * 2 ^ n) : K) ≤ ((⌈x⌉ * 2 ^ n : Int) : K) := by exact_mod_cast hhi
  push_cast at hlo2 hhi2
  unfold roundsWithin rnd64
  rw [if_pos h0, hy, hz]
  constructor
  · rw [le_mul_inv_iff₀ h2n]
    exact hlo2
  · rw [mul_inv_le_iff₀ h2n]
    exact hhi2

theorem rnd64_between (x : K) (hx : |x| < 2 ^ 53) : roundsWithin rnd64 x := by
  rcases le_total 0 x with h0 | h0
  · exact rnd64_between_of_nonneg x h0 (by rwa [abs_of_nonneg h0] at hx)
  · have h := rnd64_between_of_nonneg (-x) (by linarith) (by rwa [abs_of_nonpos h0] at hx)
    unfold roundsWithin at h ⊢
    rw [rnd64_neg, Int.floor_neg, Int.ceil_neg] at h
    push_cast at h
    constructor <;> linarith [h.1, h.2]

/-- A value given with at most 53 significant bits is left unchanged. -/
theorem rnd64_repr (x : K) (m e : Int) (he : -1074 ≤ e) (hm : |m| < 2 ^ 53)
    (hx : x = (m : K) * 2 ^ e) : rnd64 x = x := by
  rw [hx]
  exact rnd64_grid m e he hm

end Rounding

/-! ## Rotation of a Square -/

theorem rotatePointFl_eq {K : Type} [LinearOrderedField K] [FloorRing K] (fl : K → K)
    (T : Trig K) (p c : POINT) (θ X Y : K) (n m : Int)
    (hX : fl ((c.x : K) + fl (fl (((p.x - c.x : Int) : K) * T.cos θ)
      - fl (((p.y - c.y : Int) : K) * T.sin θ))) = X)
    (hY : fl ((c.y : K) + fl (fl (((p.x - c.x : Int) : K) * T.sin θ)
      + fl (((p.y - c.y : Int) : K) * T.cos θ))) = Y)
    (hn : toInt X = n) (hm : toInt Y = m) :
    rotatePointFl fl T p c θ = { x := n, y := m } := by
  simp only [rotatePointFl, hX, hY, hn, hm]

/-- The product 50 sin(M_PI) in binary64. -/
theorem rnd64_fifty_sin_pi :
    rnd64 ((50 : ℚ) * (4967757600021511 / 2 ^ 105)) = 7762121250033611 / 2 ^ 100 := by
  rw [rnd64_of_nonneg _ (-100) 7762121250033611 (by norm_num) (by norm_num) (by norm_num)
    (by norm_num) (Or.inl (by norm_num [abs_lt]))]
  norm_num

/-- The product 100 sin(M_PI) in binary64. -/
theorem rnd64_hundred_sin_pi :
    rnd64 ((100 : ℚ) * (4967757600021511 / 2 ^ 105)) = 7762121250033611 / 2 ^ 99 := by
  rw [rnd64_of_nonneg _ (-99) 7762121250033611 (by norm_num) (by norm_num) (by norm_num)
    (by norm_num) (Or.inl (by norm_num [abs_lt]))]
  norm_num

/-- The difference 50 - 50 sin(M_PI) in binary64 is the value next below
50. -/
theorem rnd64_fifty_sub :
    rnd64 ((50 : ℚ) - 7762121250033611 / 2 ^ 100) = 7036874417766399 / 2 ^ 47 := by
  rw [rnd64_of_nonneg _ (-47) 7036874417766399 (by norm_num) (by norm_num) (by norm_num)
    (by norm_num) (Or.inl (by norm_num [abs_lt]))]
  norm_num

/-- The sum 50 + 50 sin(M_PI) in binary64 is the value next above 50. -/
theorem rnd64_fifty_add :
    rnd64 ((50 : ℚ) + 7762121250033611 / 2 ^ 100) = 7036874417766401 / 2 ^ 47 := by
  rw [rnd64_of_nonneg _ (-47) 7036874417766401 (by norm_num) (by norm_num) (by norm_num)
    (by norm_num) (Or.inl (by norm_num [abs_lt]))]
  norm_num

/-- The vertex (350,200) of the Triangle of the program turned about (400,150)
by `M_PI` in binary64: the sum 400 + (50 - 50 sin(M_PI)) rounds up to 450 and
the sum 150 - (50 + 50 sin(M_PI)) is a tie that rounds to 100. -/
theorem rotatePointFl_pi_p1 :
    rotatePointFl rnd64 libmAtPi { x := 350, y := 200 } { x := 400, y := 150 } M_PI
      = { x := 450, y := 100 } := by
  have m1 : ((350 - 400 : Int) : ℚ) * libmAtPi.cos M_PI = 50 := by norm_num [libmAtPi]
  have m2 : ((200 - 150 : Int) : ℚ) * libmAtPi.sin M_PI
      = 50 * (4967757600021511 / 2 ^ 105) := by norm_num [libmAtPi]
  have m3 : ((350 - 400 : Int) : ℚ) * libmAtPi.sin M_PI
      = -(50 * (4967757600021511 / 2 ^ 105)) := by norm_num [libmAtPi]
  have m4 : ((200 - 150 : Int) : ℚ) * libmAtPi.cos M_PI = -50 := by norm_num [libmAtPi]
  have r50 : rnd64 (50 : ℚ) = 50 := rnd64_repr _ 50 0 (by norm_num) (by norm_num) (by norm_num)
  have e1 : rnd64 (((400 : Int) : ℚ) + 7036874417766399 / 2 ^ 47) = 450 := by
    rw [rnd64_of_nonneg _ (-44) 7916483719987200 (by norm_num) (by norm_num) (by norm_num)
      (by norm_num) (Or.inl (by norm_num [abs_lt]))]
    norm_num
  have e2 : rnd64 (-(7762121250033611 / 2 ^ 100 : ℚ) + -50) = -(7036874417766401 / 2 ^ 47) := by
    rw [show -(7762121250033611 / 2 ^ 100 : ℚ) + -50 = -(50 + 7762121250033611 / 2 ^ 100) by ring,
      rnd64_neg, rnd64_fifty_add]
  have e3 : rnd64 (((150 : Int) : ℚ) + -(7036874417766401 / 2 ^ 47)) = 100 := by
    rw [rnd64_of_nonneg _ (-46) 7036874417766400 (by norm_num) (by norm_num) (by norm_num)
      (by norm_num) (Or.inr ⟨by norm_num, by norm_num⟩)]
    norm_num
  refine rotatePointFl_eq rnd64 libmAtPi _ _ _ 450 100 450 100 ?_ ?_
    (toInt_intCast 450) (toInt_intCast 100)
  · show rnd64 (((400 : Int) : ℚ) + rnd64 (rnd64 (((350 - 400 : Int) : ℚ) * libmAtPi.cos M_PI)
      - rnd64 (((200 - 150 : Int) : ℚ) * libmAtPi.sin M_PI))) = 450
    rw [m1, m2, r50, rnd64_fifty_sin_pi, rnd64_fifty_sub, e1]
  · show rnd64 (((150 : Int) : ℚ) + rnd64 (rnd64 (((350 - 400 : Int) : ℚ) * libmAtPi.sin M_PI)
      + rnd64 (((200 - 150 : Int) : ℚ) * libmAtPi.cos M_PI))) = 100
    rw [m3, m4, rnd64_neg, rnd64_neg, r50, rnd64_fifty_sin_pi, e2, e3]

/-- The vertex (400,50) of the Triangle of the program turned about (400,150)
by `M_PI` in binary64. -/
theorem rotatePointFl_pi_p0 :
    rotatePointFl rnd64 libmAtPi { x := 400, y := 50 } { x := 400, y := 150 } M_PI
      = { x := 400, y := 250 } := by
  have m1 : ((400 - 400 : Int) : ℚ) * libmAtPi.cos M_PI = 0 := by norm_num [libmAtPi]
  have m2 : ((50 - 150 : Int) : ℚ) * libmAtPi.sin M_PI
      = -(100 * (4967757600021511 / 2 ^ 105)) := by norm_num [libmAtPi]
  have m3 : ((400 - 400 : Int) : ℚ) * libmAtPi.sin M_PI = 0 := by norm_num [libmAtPi]
  have m4 : ((50 - 150 : Int) : ℚ) * libmAtPi.cos M_PI = 100 := by norm_num [libmAtPi]
  have r100 : rnd64 (100 : ℚ) = 100 :=
    rnd64_repr _ 100 0 (by norm_num) (by norm_num) (by norm_num)
  have rA : rnd64 ((0 : ℚ) - -(7762121250033611 / 2 ^ 99)) = 7762121250033611 / 2 ^ 99 := by
    rw [rnd64_repr _ 7762121250033611 (-99) (by norm_num) (by norm_num) (by norm_num)]
    norm_num
  have e1 : rnd64 (((400 : Int) : ℚ) + 7762121250033611 / 2 ^ 99) = 400 := by
    rw [rnd64_of_nonneg _ (-44) 7036874417766400 (by norm_num) (by norm_num) (by norm_num)
      (by norm_num) (Or.inl (by norm_num [abs_lt]))]
    norm_num
  have e2 : rnd64 ((0 : ℚ) + 100) = 100 := by rw [zero_add, r100]
  have e3 : rnd64 (((150 : Int) : ℚ) + 100) = 250 := by
    rw [rnd64_repr _ 250 0 (by norm_num) (by norm_num) (by norm_num)]
    norm_num
  refine rotatePointFl_eq rnd64 libmAtPi _ _ _ 400 250 400 250 ?_ ?_
    (toInt_intCast 400) (toInt_intCast 250)
  · show rnd64 (((400 : Int) : ℚ) + rnd64 (rnd64 (((400 - 400 : Int) : ℚ) * libmAtPi.cos M_PI)
      - rnd64 (((50 - 150 : Int) : ℚ) * libmAtPi.sin M_PI))) = 400
    rw [m1, m2, rnd64_zero, rnd64_neg, rnd64_hundred_sin_pi, rA, e1]
  · show rnd64 (((150 : Int) : ℚ) + rnd64 (rnd64 (((400 - 400 : Int) : ℚ) * libmAtPi.sin M_PI)
      + rnd64 (((50 - 150 : Int) : ℚ) * libmAtPi.cos M_PI))) = 250
    rw [m3, m4, rnd64_zero, r100, e2, e3]

/-- The vertex (450,200) of the Triangle of the program turned about (400,150)
by `M_PI` in binary64. -/
theorem rotatePointFl_pi_p2 :
    rotatePointFl rnd64 libmAtPi { x := 450, y := 200 } { x := 400, y := 150 } M_PI
      = { x := 350, y := 100 } := by
  have m1 : ((450 - 400 : Int) : ℚ) * libmAtPi.cos M_PI = -50 := by norm_num [libmAtPi]
  have m2 : ((200 - 150 : Int) : ℚ) * libmAtPi.sin M_PI
      = 50 * (4967757600021511 / 2 ^ 105) := by norm_num [libmAtPi]
  have m3 : ((450 - 400 : Int) : ℚ) * libmAtPi.sin M_PI
      = 50 * (4967757600021511 / 2 ^ 105) := by norm_num [libmAtPi]
  have m4 : ((200 - 150 : Int) : ℚ) * libmAtPi.cos M_PI = -50 := by norm_num [libmAtPi]
  have r50 : rnd64 (50 : ℚ) = 50 := rnd64_repr _ 50 0 (by norm_num) (by norm_num) (by norm_num)
  have e0 : rnd64 (-(50 : ℚ) - 7762121250033611 / 2 ^ 100) = -(7036874417766401 / 2 ^ 47) := by
    rw [show -(50 : ℚ) - 7762121250033611 / 2 ^ 100 = -(50 + 7762121250033611 / 2 ^ 100) by ring,
      rnd64_neg, rnd64_fifty_add]
  have e1 : rnd64 (((400 : Int) : ℚ) + -(7036874417766401 / 2 ^ 47)) = 350 := by
    rw [rnd64_of_nonneg _ (-44) 6157265115545600 (by norm_num) (by norm_num) (by norm_num)
      (by norm_num) (Or.inl (by norm_num [abs_lt]))]
    norm_num
  have e2 : rnd64 ((7762121250033611 / 2 ^ 100 : ℚ) + -50) = -(7036874417766399 / 2 ^ 47) := by
    rw [show (7762121250033611 / 2 ^ 100 : ℚ) + -50 = -(50 - 7762121250033611 / 2 ^ 100) by ring,
      rnd64_neg, rnd64_fifty_sub]
  have e3 : rnd64 (((150 : Int) : ℚ) + -(7036874417766399 / 2 ^ 47)) = 100 := by
    rw [rnd64_of_nonneg _ (-46) 7036874417766400 (by norm_num) (by norm_num) (by norm_num)
      (by norm_num) (Or.inr ⟨by norm_num, by norm_num⟩)]
    norm_num
  refine rotatePointFl_eq rnd64 libmAtPi _ _ _ 350 100 350 100 ?_ ?_
    (toInt_intCast 350) (toInt_intCast 100)
  · show rnd64 (((400 : Int) : ℚ) + rnd64 (rnd64 (((450 - 400 : Int) : ℚ) * libmAtPi.cos M_PI)
      - rnd64 (((200 - 150 : Int) : ℚ) * libmAtPi.sin M_PI))) = 350
    rw [m1, m2, rnd64_neg, r50, rnd64_fifty_sin_pi, e0, e1]
  · show rnd64 (((150 : Int) : ℚ) + rnd64 (rnd64 (((450 - 400 : Int) : ℚ) * libmAtPi.sin M_PI)
      + rnd64 (((200 - 150 : Int) : ℚ) * libmAtPi.cos M_PI))) = 100
    rw [m3, m4, rnd64_neg, r50, rnd64_fifty_sin_pi, e2, e3]

/-- The formula of the claim, without rounding, at the values the C library
returns at `M_PI`, on the Triangle of the program. -/
theorem rotate_pi_unrounded :
    Triangle.rotate libmAtPi
        (Triangle.mk { x := 400, y := 50 } { x := 350, y := 200 } { x := 450, y := 200 }) M_PI
      = Triangle.mk { x := 400, y := 250 } { x := 449, y := 99 } { x := 349, y := 100 } := by
  have hc : Triangle.center
      (Triangle.mk { x := 400, y := 50 } { x := 350, y := 200 } { x := 450, y := 200 })
      = { x := 400, y := 150 } := rfl
  simp only [Triangle.rotate, hc, rotatePoint, libmAtPi, Triangle.mk.injEq, POINT.mk.injEq]
  refine ⟨⟨?_, ?_⟩, ⟨?_, ?_⟩, ?_, ?_⟩ <;>
    exact toInt_eq_of_nonneg _ _ (by norm_num) (by norm_num) (by norm_num)

/-- The exact sine and cosine at the double `M_PI`, which lies just below π. -/
theorem M_PI_real_trig :
    0 < Real.sin (M_PI : ℝ) ∧ Real.sin (M_PI : ℝ) < 1 / 10 ^ 15 ∧
      -1 < Real.cos (M_PI : ℝ) ∧ Real.cos (M_PI : ℝ) < -1 + 1 / 10 ^ 15 ∧
      1 + Real.cos (M_PI : ℝ) < Real.sin (M_PI : ℝ) := by
  have h1 : (M_PI : ℝ) < Real.pi := by
    have := Real.pi_gt_d20
    unfold M_PI
    norm_num at this ⊢
    linarith
  have h2 : Real.pi - (M_PI : ℝ) < 1 / 10 ^ 15 := by
    have := Real.pi_lt_d20
    unfold M_PI
    norm_num at this ⊢
    linarith
  have h0 : 0 < Real.pi - (M_PI : ℝ) := by linarith
  have h3 : (0 : ℝ) < M_PI := by
    unfold M_PI
    positivity
  have hs : Real.sin (M_PI : ℝ) = Real.sin (Real.pi - (M_PI : ℝ)) := by
    rw [Real.sin_pi_sub]
  have hc : Real.cos (M_PI : ℝ) = -Real.cos (Real.pi - (M_PI : ℝ)) := by
    rw [Real.cos_pi_sub, neg_neg]
  have s1 := Real.sin_pos_of_pos_of_lt_pi h0 (by linarith)
  have s2 := Real.sin_lt h0
  have c1 : Real.cos (Real.pi - (M_PI : ℝ)) < 1 := by
    have := Real.cos_lt_cos_of_nonneg_of_le_pi le_rfl (by linarith) h0
    rwa [Real.cos_zero] at this
  have c2 := Real.one_sub_sq_div_two_le_cos (x := Real.pi - (M_PI : ℝ))
  have s3 := Real.sin_gt_sub_cube h0 (by linarith)
  have hq : 0 < (Real.pi - (M_PI : ℝ))
      * (1 - (Real.pi - (M_PI : ℝ)) / 2 - (Real.pi - (M_PI : ℝ)) ^ 2 / 4) :=
    mul_pos h0 (by nlinarith)
  refine ⟨by rw [hs]; exact s1, by rw [hs]; linarith, by rw [hc]; linarith, ?_, ?_⟩
  · rw [hc]
    nlinarith
  · rw [hc, hs]
    nlinarith

/-- The formula of the claim with the exact cosine and sine of the double
`M_PI`, on the Triangle of the program. -/
theorem rotate_pi_exact :
    Triangle.rotate (Trig.mk Real.cos Real.sin)
        (Triangle.mk { x := 400, y := 50 } { x := 350, y := 200 } { x := 450, y := 200 })
        (M_PI : ℝ)
      = Triangle.mk { x := 400, y := 249 } { x := 449, y := 99 } { x := 349, y := 100 } := by
  obtain ⟨s0, s1, c0, c1, sc⟩ := M_PI_real_trig
  have hc : Triangle.center
      (Triangle.mk { x := 400, y := 50 } { x := 350, y := 200 } { x := 450, y := 200 })
      = { x := 400, y := 150 } := rfl
  simp only [Triangle.rotate, hc, rotatePoint, Triangle.mk.injEq, POINT.mk.injEq]
  refine ⟨⟨?_, ?_⟩, ⟨?_, ?_⟩, ?_, ?_⟩ <;>
    refine toInt_eq_of_nonneg _ _ ?_ ?_ ?_ <;> norm_num <;> linarith

/-- C14, as stated, fails on the Triangle of the program, (400,50), (350,200),
(450,200) with pivot (400,150), at the angle `M_PI`: the code, which rounds
every product, sum and difference to a double, produces (400,250), (450,100),
(350,100); the formula of the claim with exact arithmetic on the doubles that
`cos` and `sin` return produces (400,250), (449,99), (349,100), and with the
exact real cosine and sine (400,249), (449,99), (349,100). -/
theorem Triangle_rotate_formula_rounds :
    Triangle.rotateFl rnd64 libmAtPi
        (Triangle.mk { x := 400, y := 50 } { x := 350, y := 200 } { x := 450, y := 200 }) M_PI
      = Triangle.mk { x := 400, y := 250 } { x := 450, y := 100 } { x := 350, y := 100 }
    ∧ Triangle.rotate libmAtPi
        (Triangle.mk { x := 400, y := 50 } { x := 350, y := 200 } { x := 450, y := 200 }) M_PI
      = Triangle.mk { x := 400, y := 250 } { x := 449, y := 99 } { x := 349, y := 100 }
    ∧ Triangle.rotate (Trig.mk Real.cos Real.sin)
        (Triangle.mk { x := 400, y := 50 } { x := 350, y := 200 } { x := 450, y := 200 })
        (M_PI : ℝ)
      = Triangle.mk { x := 400, y := 249 } { x := 449, y := 99 } { x := 349, y := 100 } := by
  refine ⟨?_, rotate_pi_unrounded, rotate_pi_exact⟩
  have hc : Triangle.center
      (Triangle.mk { x := 400, y := 50 } { x := 350, y := 200 } { x := 450, y := 200 })
      = { x := 400, y := 150 } := rfl
  simp only [Triangle.rotateFl, hc, rotatePointFl_pi_p0, rotatePointFl_pi_p1,
    rotatePointFl_pi_p2]

/-- C14, amended: for every Triangle, every angle θ and every rounding `fl`
of the results of the operations on `double`, `rotate(θ)` replaces each vertex
`pi` by `(trunc (fl (cx + fl (fl (dxi·c) − fl (dyi·s)))),
trunc (fl (cy + fl (fl (dxi·s) + fl (dyi·c)))))`, where `c` and `s` are the
values `cos θ` and `sin θ` return, `(cx, cy)` is the integer average of the
three vertices as they were before the call, computed with division
truncating toward zero (a coordinate sum of −1 gives 0), `(dxi, dyi)` is
`pi − (cx, cy)` converted to `double`, and `trunc` truncates toward zero; the
same pivot is used for all three vertices. -/
theorem Triangle_rotateFl_formula {K : Type} [LinearOrderedField K] [FloorRing K]
    (fl : K → K) (T : Trig K) (t : Triangle) (θ : K) :
    (∀ i : Fin 3, (Triangle.rotateFl fl T t θ).point i
        = { x := toInt (fl ((t.center.x : K)
                + fl (fl ((((t.point i).x - t.center.x : Int) : K) * T.cos θ)
                  - fl ((((t.point i).y - t.center.y : Int) : K) * T.sin θ)))),
            y := toInt (fl ((t.center.y : K)
                + fl (fl ((((t.point i).x - t.center.x : Int) : K) * T.sin θ)
                  + fl ((((t.point i).y - t.center.y : Int) : K) * T.cos θ)))) })
    ∧ t.center = { x := Int.tdiv (t.p0.x + t.p1.x + t.p2.x) 3,
                   y := Int.tdiv (t.p0.y + t.p1.y + t.p2.y) 3 }
    ∧ (∀ a : Int, |3 * Int.tdiv a 3| ≤ |a| ∧ |a - 3 * Int.tdiv a 3| < 3)
    ∧ Int.tdiv (-1) 3 = 0
    ∧ (∀ v : K, |((toInt v : Int) : K)| ≤ |v| ∧ |((toInt v : Int) : K) - v| < 1) := by
  refine ⟨?_, rfl, tdiv_three_toward_zero, by decide, fun v => ⟨abs_toInt_le v, abs_toInt_sub_lt v⟩⟩
  intro i
  fin_cases i <;> rfl

/-! ## Square vertices and the rotation helper in `double` -/

section SquareRounded

variable {K : Type} [LinearOrderedField K] [FloorRing K]

/-- Truncation keeps a value between two integers that enclose it. -/
theorem toInt_between (v : K) (a b : Int) (h1 : (a : K) ≤ v) (h2 : v ≤ (b : K)) :
    a ≤ toInt v ∧ toInt v ≤ b := by
  have hfc : ⌊v⌋ ≤ ⌈v⌉ := Int.floor_le_ceil v
  have ha : a ≤ ⌊v⌋ := Int.le_floor.mpr h1
  have hb : ⌈v⌉ ≤ b := Int.ceil_le.mpr h2
  unfold toInt
  split
  · exact ⟨ha, le_trans hfc hb⟩
  · exact ⟨le_trans ha hfc, hb⟩

/-- Adding an integer and rounding before the cast, against adding it after
the cast: the results are at most 1 apart when the rounded sum stays between
the integers next to the exact sum. -/
theorem toInt_round_add_close (fl : K → K) (c : Int) (o : K)
    (h : roundsWithin fl ((c : K) + o)) :
    |toInt (fl ((c : K) + o)) - (c + toInt o)| ≤ 1 := by
  have hf : ⌊(c : K) + o⌋ = c + ⌊o⌋ := Int.floor_int_add c o
  have hc : ⌈(c : K) + o⌉ = c + ⌈o⌉ := by
    rw [add_comm (c : K) o, Int.ceil_add_int, add_comm]
  unfold roundsWithin at h
  rw [hf, hc] at h
  have h1 := toInt_between (fl ((c : K) + o)) (c + ⌊o⌋) (c + ⌈o⌉) h.1 h.2
  have h2 := toInt_between o ⌊o⌋ ⌈o⌉ (Int.floor_le o) (Int.le_ceil o)
  have h3 : ⌈o⌉ ≤ ⌊o⌋ + 1 := Int.ceil_le_floor_add_one o
  rw [abs_le]
  constructor <;> omega

/-- Adding an integer before the cast, computed exactly, against adding it
after the cast: the same integer when the value is a whole number or stays on
its side of zero. -/
theorem toInt_exact_add (fl : K → K) (c : Int) (o : K)
    (h : (∃ n : Int, o = (n : K)) ∨ (fl ((c : K) + o) = (c : K) + o ∧ sameSide o ((c : K) + o)))
    (hw : roundsWithin fl ((c : K) + o)) :
    toInt (fl ((c : K) + o)) = c + toInt o := by
  rcases h with ⟨n, rfl⟩ | ⟨he, hs⟩
  · have e : ((c : K) + (n : K)) = ((c + n : Int) : K) := by push_cast; ring
    unfold roundsWithin at hw
    rw [e, Int.floor_intCast, Int.ceil_intCast] at hw
    rw [e, le_antisymm hw.2 hw.1, toInt_intCast, toInt_intCast]
  · rw [he, add_comm (c : K) o, toInt_add_intCast o c (by rwa [add_comm o (c : K)]), add_comm]

/-- The array that `Square::draw` fills adds the center to each truncated
rounded offset. -/
theorem Square_verticesFl_eq_offsetsFl (fl : K → K) (T : Trig K) (s : Square K) :
    s.verticesFl fl T
      = (s.offsetsFl fl T).map
          (fun o => { x := s.centerX + toInt o.1, y := s.centerY + toInt o.2 }) :=
  rfl

/-- The helper `rotatePoint` on the axis-aligned corners adds the center to
each rounded offset, rounds the sum and then truncates. -/
theorem Square_cornersFl_rotated (fl : K → K) (hodd : ∀ x : K, fl (-x) = -fl x) (T : Trig K)
    (s : Square K) :
    s.corners.map (fun p => rotatePointFl fl T p { x := s.centerX, y := s.centerY } s.angle)
      = (s.offsetsFl fl T).map
          (fun o => { x := toInt (fl ((s.centerX : K) + o.1)),
                      y := toInt (fl ((s.centerY : K) + o.2)) }) := by
  have e1 : ∀ c h : Int, c + h - c = h := fun c h => by omega
  have e2 : ∀ c h : Int, c - h - c = -h := fun c h => by omega
  simp only [Square.corners, Square.offsetsFl, List.map_cons, List.map_nil, rotatePointFl, e1, e2,
    Int.cast_neg, neg_mul, hodd, sub_neg_eq_add, ← sub_eq_add_neg]

/-- The vertices of `Square::draw` against `rotatePoint` on the corners, for
a rounding that is odd and keeps every sum of a center coordinate and an
offset between the neighbouring integers. -/
theorem Square_verticesFl_close (fl : K → K) (hodd : ∀ x : K, fl (-x) = -fl x) (T : Trig K)
    (s : Square K)
    (hsum : ∀ o ∈ s.offsetsFl fl T, roundsWithin fl ((s.centerX : K) + o.1)
      ∧ roundsWithin fl ((s.centerY : K) + o.2)) :
    List.Forall₂ (fun p q : POINT => |q.x - p.x| ≤ 1 ∧ |q.y - p.y| ≤ 1)
      (s.verticesFl fl T)
      (s.corners.map (fun p => rotatePointFl fl T p { x := s.centerX, y := s.centerY } s.angle)) := by
  rw [Square_cornersFl_rotated fl hodd, Square_verticesFl_eq_offsetsFl, List.forall₂_map_left_iff,
    List.forall₂_map_right_iff, List.forall₂_same]
  intro o ho
  exact ⟨toInt_round_add_close fl _ _ (hsum o ho).1, toInt_round_add_close fl _ _ (hsum o ho).2⟩

/-- A rounded value is bounded by any whole number that bounds the exact
value. -/
theorem roundsWithin_abs_le (fl : K → K) (x : K) (B : Int) (h : roundsWithin fl x)
    (hx : |x| ≤ (B : K)) : |fl x| ≤ (B : K) := by
  have hx2 := abs_le.mp hx
  have h1 : (-B : Int) ≤ ⌊x⌋ := Int.le_floor.mpr (by push_cast; exact hx2.1)
  have h2 : ⌈x⌉ ≤ B := Int.ceil_le.mpr hx2.2
  have h3 : ((-B : Int) : K) ≤ (⌊x⌋ : K) := by exact_mod_cast h1
  have h4 : (⌈x⌉ : K) ≤ (B : K) := by exact_mod_cast h2
  rw [abs_le]
  push_cast at h3
  exact ⟨by linarith [h.1], by linarith [h.2]⟩

/-- Rounding to binary64 keeps a value within a whole bound below 2^53. -/
theorem rnd64_abs_le (x : K) (B : Int) (hB : B < 2 ^ 53) (hx : |x| ≤ (B : K)) :
    |rnd64 x| ≤ (B : K) := by
  refine roundsWithin_abs_le rnd64 x B (rnd64_between x ?_) hx
  have : (B : K) < 2 ^ 53 := by exact_mod_cast hB
  linarith

/-- The rounded sum and difference of two rounded products of a half side
with a cosine or sine are bounded by twice the bound of the products. -/
theorem rnd64_offset_abs_le (H : Int) (hH : H ≤ 2 ^ 40) (a b : K) (ha : |a| ≤ (H : K))
    (hb : |b| ≤ (H : K)) :
    |rnd64 (rnd64 a + rnd64 b)| ≤ ((2 * H : Int) : K)
      ∧ |rnd64 (rnd64 a - rnd64 b)| ≤ ((2 * H : Int) : K) := by
  have h1 := rnd64_abs_le a H (by omega) ha
  have h2 := rnd64_abs_le b H (by omega) hb
  have h3 : |rnd64 a + rnd64 b| ≤ ((2 * H : Int) : K) := by
    push_cast
    linarith [abs_add (rnd64 a) (rnd64 b)]
  have h4 : |rnd64 a - rnd64 b| ≤ ((2 * H : Int) : K) := by
    push_cast
    linarith [abs_sub (rnd64 a) (rnd64 b)]
  exact ⟨rnd64_abs_le _ _ (by omega) h3, rnd64_abs_le _ _ (by omega) h4⟩

end SquareRounded

/-- A whole number times a cosine or sine keeps the bound of the whole
number. -/
theorem abs_intCast_mul_le {K : Type} [LinearOrderedField K] (z B : Int) (t : K)
    (hz : |z| ≤ B) (ht : |t| ≤ 1) : |(z : K) * t| ≤ (B : K) := by
  have h1 : |(z : K)| ≤ (B : K) := by
    rw [← Int.cast_abs]
    exact_mod_cast hz
  rw [abs_mul]
  calc |(z : K)| * |t| ≤ |(z : K)| * 1 := mul_le_mul_of_nonneg_left ht (abs_nonneg _)
    _ = |(z : K)| := mul_one _
    _ ≤ (B : K) := h1

section SquareBinary64

variable {K : Type} [LinearOrderedField K] [FloorRing K]

theorem abs_tdiv_two_le (a : Int) : |Int.tdiv a 2| ≤ |a| := by
  rcases le_total 0 a with h | h
  · rw [Int.tdiv_eq_ediv h (by decide), abs_of_nonneg h, abs_of_nonneg (by omega)]
    omega
  · have h2 : a = -(-a) := by omega
    have h3 : Int.tdiv a 2 = -((-a) / 2) := by
      rw [h2, Int.neg_tdiv, Int.tdiv_eq_ediv (by omega) (by decide)]
      simp
    rw [h3, abs_of_nonpos h, abs_of_nonpos (by omega)]
    omega

/-- Every rounded offset of `Square::draw` is bounded by 2^32 for a side of
`int` range. -/
theorem Square_offsetsFl_abs_le (T : Trig K) (s : Square K) (hc : |T.cos s.angle| ≤ 1)
    (hs : |T.sin s.angle| ≤ 1) (hl : |s.sideLength| ≤ 2 ^ 31) :
    ∀ o ∈ s.offsetsFl rnd64 T,
      |o.1| ≤ ((2 * 2 ^ 31 : Int) : K) ∧ |o.2| ≤ ((2 * 2 ^ 31 : Int) : K) := by
  have hh : |Int.tdiv s.sideLength 2| ≤ 2 ^ 31 := le_trans (abs_tdiv_two_le _) hl
  have hn : |-Int.tdiv s.sideLength 2| ≤ 2 ^ 31 := by rwa [abs_neg]
  have a1 := abs_intCast_mul_le _ (2 ^ 31) (T.cos s.angle) hh hc
  have a2 := abs_intCast_mul_le _ (2 ^ 31) (T.sin s.angle) hh hs
  have a3 := abs_intCast_mul_le _ (2 ^ 31) (T.cos s.angle) hn hc
  have a4 := abs_intCast_mul_le _ (2 ^ 31) (T.sin s.angle) hn hs
  intro o ho
  simp only [Square.offsetsFl, List.mem_cons, List.mem_singleton, List.not_mem_nil,
    or_false] at ho
  rcases ho with rfl | rfl | rfl | rfl
  · exact ⟨(rnd64_offset_abs_le _ (by norm_num) _ _ a1 a2).2, (rnd64_offset_abs_le _ (by norm_num) _ _ a2 a1).1⟩
  · exact ⟨(rnd64_offset_abs_le _ (by norm_num) _ _ a1 a2).1, (rnd64_offset_abs_le _ (by norm_num) _ _ a2 a1).2⟩
  · exact ⟨(rnd64_offset_abs_le _ (by norm_num) _ _ a3 a2).1, (rnd64_offset_abs_le _ (by norm_num) _ _ a4 a1).2⟩
  · exact ⟨(rnd64_offset_abs_le _ (by norm_num) _ _ a3 a2).2, (rnd64_offset_abs_le _ (by norm_num) _ _ a4 a1).1⟩

/-- The sum of a coordinate of `int` range and a value bounded by 2^32 rounds
to binary64 between the neighbouring integers. -/
theorem rnd64_center_add (c : Int) (o : K) (hc : |c| ≤ 2 ^ 31)
    (ho : |o| ≤ ((2 * 2 ^ 31 : Int) : K)) : roundsWithin rnd64 ((c : K) + o) := by
  apply rnd64_between
  have h1 : |(c : K)| ≤ ((2 ^ 31 : Int) : K) := by
    rw [← Int.cast_abs]
    exact_mod_cast hc
  have h2 := abs_add (c : K) o
  push_cast at h1 ho
  have h3 : (2 : K) ^ 31 + 2 * 2 ^ 31 < 2 ^ 53 := by norm_num
  linarith

end SquareBinary64

/-- C16, amended: for every Square with center, side and stored angle a of
the ranges of `int` and of cosine and sine, in binary64 arithmetic each
coordinate of the four vertices that `Square::draw` computes is within 1 of
the corresponding coordinate of `rotatePoint` applied to the axis-aligned
corners (cx+h, cy+h), (cx+h, cy−h), (cx−h, cy−h), (cx−h, cy+h) about the
center by the angle a; the two agree when every rotated offset is a whole
number, or its sum with the center coordinate is exact in `double` and lies
on the same side of zero as the offset. -/
theorem Square_verticesFl_near_rotatePointFl {K : Type} [LinearOrderedField K] [FloorRing K]
    (T : Trig K) (s : Square K) (hc : |T.cos s.angle| ≤ 1) (hs : |T.sin s.angle| ≤ 1)
    (hx : |s.centerX| ≤ 2 ^ 31) (hy : |s.centerY| ≤ 2 ^ 31) (hl : |s.sideLength| ≤ 2 ^ 31) :
    List.Forall₂ (fun p q : POINT => |q.x - p.x| ≤ 1 ∧ |q.y - p.y| ≤ 1)
      (s.verticesFl rnd64 T)
      (s.corners.map
        (fun p => rotatePointFl rnd64 T p { x := s.centerX, y := s.centerY } s.angle))
    ∧ ((∀ o ∈ s.offsetsFl rnd64 T,
          ((∃ n : Int, o.1 = (n : K)) ∨ (rnd64 ((s.centerX : K) + o.1) = (s.centerX : K) + o.1
            ∧ sameSide o.1 ((s.centerX : K) + o.1)))
          ∧ ((∃ n : Int, o.2 = (n : K)) ∨ (rnd64 ((s.centerY : K) + o.2) = (s.centerY : K) + o.2
            ∧ sameSide o.2 ((s.centerY : K) + o.2))))
        → s.verticesFl rnd64 T
          = s.corners.map
              (fun p => rotatePointFl rnd64 T p { x := s.centerX, y := s.centerY } s.angle)) := by
  have hb := Square_offsetsFl_abs_le T s hc hs hl
  have hsum : ∀ o ∈ s.offsetsFl rnd64 T, roundsWithin rnd64 ((s.centerX : K) + o.1)
      ∧ roundsWithin rnd64 ((s.centerY : K) + o.2) := fun o ho =>
    ⟨rnd64_center_add _ _ hx (hb o ho).1, rnd64_center_add _ _ hy (hb o ho).2⟩
  refine ⟨Square_verticesFl_close rnd64 rnd64_neg T s hsum, fun h => ?_⟩
  rw [Square_cornersFl_rotated rnd64 rnd64_neg, Square_verticesFl_eq_offsetsFl]
  refine List.map_congr_left fun o ho => ?_
  rw [toInt_exact_add rnd64 _ _ (h o ho).1 (hsum o ho).1,
    toInt_exact_add rnd64 _ _ (h o ho).2 (hsum o ho).2]

/-- In binary64 the first vertex of the Square with center (-31,0) and side
64 at the angle `M_PI / 2` is (-62,32) in `Square::draw`, and `rotatePoint` on
the corner (1,32) returns (-63,32): the offset -31.999999999999996 is cast to
-31 before the center is added, while the sum -31 + -31.999999999999996 rounds
to -63 before the cast. -/
theorem Square_draw_rounds_before_cast :
    (Square.verticesFl rnd64 libmAtHalfPi (Square.mk (-31) 0 64 (M_PI / 2))).head?
      = some { x := -62, y := 32 }
    ∧ rotatePointFl rnd64 libmAtHalfPi { x := 1, y := 32 } { x := -31, y := 0 } (M_PI / 2)
      = { x := -63, y := 32 } := by
  have ht : Int.tdiv 64 2 = 32 := rfl
  have m1 : ((32 : Int) : ℚ) * (4967757600021511 / 2 ^ 106) = 4967757600021511 / 2 ^ 101 := by
    norm_num
  have m2 : ((32 : Int) : ℚ) * 1 = 32 := by norm_num
  have r1 : rnd64 (4967757600021511 / 2 ^ 101 : ℚ) = 4967757600021511 / 2 ^ 101 :=
    rnd64_repr _ 4967757600021511 (-101) (by norm_num) (by norm_num) (by norm_num)
  have r2 : rnd64 (32 : ℚ) = 32 := rnd64_repr _ 32 0 (by norm_num) (by norm_num) (by norm_num)
  have e1 : rnd64 ((4967757600021511 / 2 ^ 101 : ℚ) - 32) = -(9007199254740991 / 2 ^ 48) := by
    rw [show (4967757600021511 / 2 ^ 101 : ℚ) - 32 = -(32 - 4967757600021511 / 2 ^ 101) by ring,
      rnd64_neg, rnd64_of_nonneg _ (-48) 9007199254740991 (by norm_num) (by norm_num)
        (by norm_num) (by norm_num) (Or.inl (by norm_num [abs_lt]))]
    norm_num
  have e2 : rnd64 ((32 : ℚ) + 4967757600021511 / 2 ^ 101) = 32 := by
    rw [rnd64_of_nonneg _ (-47) 4503599627370496 (by norm_num) (by norm_num) (by norm_num)
      (by norm_num) (Or.inl (by norm_num [abs_lt]))]
    norm_num
  have e3 : rnd64 (((-31 : Int) : ℚ) + -(9007199254740991 / 2 ^ 48)) = -63 := by
    rw [show ((-31 : Int) : ℚ) + -(9007199254740991 / 2 ^ 48)
        = -(31 + 9007199254740991 / 2 ^ 48) by push_cast; ring,
      rnd64_neg, rnd64_of_nonneg _ (-47) 8866461766385664 (by norm_num) (by norm_num)
        (by norm_num) (by norm_num) (Or.inr ⟨by norm_num, by norm_num⟩)]
    norm_num
  have e4 : rnd64 (((0 : Int) : ℚ) + 32) = 32 := by
    rw [Int.cast_zero, zero_add, r2]
  have t1 : toInt (-(9007199254740991 / 2 ^ 48) : ℚ) = -31 :=
    toInt_eq_of_nonpos _ _ (by norm_num) (by norm_num) (by norm_num)
  have t2 : toInt (32 : ℚ) = 32 := toInt_intCast 32
  have t3 : toInt (-63 : ℚ) = -63 := toInt_intCast (-63)
  constructor
  · simp only [Square.verticesFl, List.head?_cons, libmAtHalfPi, ht, m1, m2, r1, r2, e1, e2, t1,
      t2]
    rfl
  · refine rotatePointFl_eq rnd64 libmAtHalfPi _ _ _ (-63) 32 (-63) 32 ?_ ?_ t3 t2
    · show rnd64 (((-31 : Int) : ℚ) + rnd64 (rnd64 (((1 - -31 : Int) : ℚ)
          * libmAtHalfPi.cos (M_PI / 2)) - rnd64 (((32 - 0 : Int) : ℚ)
          * libmAtHalfPi.sin (M_PI / 2)))) = -63
      simp only [libmAtHalfPi]
      rw [show ((1 - -31 : Int) : ℚ) = ((32 : Int) : ℚ) by norm_num,
        show ((32 - 0 : Int) : ℚ) = ((32 : Int) : ℚ) by norm_num, m1, m2, r1, r2, e1, e3]
    · show rnd64 (((0 : Int) : ℚ) + rnd64 (rnd64 (((1 - -31 : Int) : ℚ)
          * libmAtHalfPi.sin (M_PI / 2)) + rnd64 (((32 - 0 : Int) : ℚ)
          * libmAtHalfPi.cos (M_PI / 2)))) = 32
      simp only [libmAtHalfPi]
      rw [show ((1 - -31 : Int) : ℚ) = ((32 : Int) : ℚ) by norm_num,
        show ((32 - 0 : Int) : ℚ) = ((32 : Int) : ℚ) by norm_num, m1, m2, r1, r2, e2, e4]

/-- C16, amended, on the Square with center (-31,0) and side 64 turned to the
angle `M_PI / 2`. -/
theorem Square_verticesFl_near_rotatePointFl_witness :
    |libmAtHalfPi.cos (M_PI / 2)| ≤ 1 ∧ |libmAtHalfPi.sin (M_PI / 2)| ≤ 1 ∧
    List.Forall₂ (fun p q : POINT => |q.x - p.x| ≤ 1 ∧ |q.y - p.y| ≤ 1)
      (Square.verticesFl rnd64 libmAtHalfPi (Square.mk (-31) 0 64 (M_PI / 2)))
      ((Square.corners (Square.mk (-31) 0 64 (M_PI / 2 : ℚ))).map
        (fun p => rotatePointFl rnd64 libmAtHalfPi p { x := -31, y := 0 } (M_PI / 2))) :=
  ⟨by norm_num [libmAtHalfPi, abs_le], by norm_num [libmAtHalfPi, abs_le],
    (Square_verticesFl_near_rotatePointFl libmAtHalfPi (Square.mk (-31) 0 64 (M_PI / 2))
      (by norm_num [libmAtHalfPi, abs_le]) (by norm_num [libmAtHalfPi, abs_le])
      (by norm_num) (by norm_num) (by norm_num)).1⟩

/-! ## Translation and rotation of a Triangle in `double` -/

section MoveRotateRounded

variable {K : Type} [LinearOrderedField K] [FloorRing K]

/-- Rounding and truncating a value, against doing so after a whole number
is added: at most 1 apart when both rounded values stay between the
neighbouring integers. -/
theorem toInt_round_shift_close (fl : K → K) (v : K) (a : Int) (h1 : roundsWithin fl v)
    (h2 : roundsWithin fl (v + (a : K))) :
    |toInt (fl (v + (a : K))) - (toInt (fl v) + a)| ≤ 1 := by
  unfold roundsWithin at h1 h2
  rw [Int.floor_add_int, Int.ceil_add_int] at h2
  have k1 := toInt_between (fl v) ⌊v⌋ ⌈v⌉ h1.1 h1.2
  have k2 := toInt_between (fl (v + (a : K))) (⌊v⌋ + a) (⌈v⌉ + a) h2.1 h2.2
  have k3 : ⌈v⌉ ≤ ⌊v⌋ + 1 := Int.ceil_le_floor_add_one v
  rw [abs_le]
  constructor <;> omega

/-- Rounding and truncating commute with adding a whole number when both
values are exact and lie on the same side of zero. -/
theorem toInt_exact_shift (fl : K → K) (v : K) (a : Int) (e1 : fl v = v)
    (e2 : fl (v + (a : K)) = v + (a : K)) (hs : sameSide v (v + (a : K))) :
    toInt (fl (v + (a : K))) = toInt (fl v) + a := by
  rw [e1, e2, toInt_add_intCast v a hs]

/-- The helper `rotatePoint` casts the rounded sums. -/
theorem rotatePointFl_eq_sum (fl : K → K) (T : Trig K) (p c : POINT) (θ : K) :
    rotatePointFl fl T p c θ
      = { x := toInt (fl (rotatePointFlSum fl T p c θ).1),
          y := toInt (fl (rotatePointFlSum fl T p c θ).2) } :=
  rfl

/-- The helper `rotatePoint` on a point and a center that are moved by the
same offset: the offset is added to the sums before the last rounding. -/
theorem rotatePointFl_move (fl : K → K) (T : Trig K) (p c : POINT) (θ : K) (a b : Int) :
    rotatePointFl fl T { x := p.x + a, y := p.y + b } { x := c.x + a, y := c.y + b } θ
      = { x := toInt (fl ((rotatePointFlSum fl T p c θ).1 + (a : K))),
          y := toInt (fl ((rotatePointFlSum fl T p c θ).2 + (b : K))) } := by
  have e1 : p.x + a - (c.x + a) = p.x - c.x := by ring
  have e2 : p.y + b - (c.y + b) = p.y - c.y := by ring
  simp only [rotatePointFl, rotatePointFlSum, e1, e2, Int.cast_add, add_right_comm]

/-- The sums of `rotatePoint` before the last rounding are bounded for
coordinates of `int` range. -/
theorem rotatePointFlSum_abs_le (T : Trig K) (p c : POINT) (θ : K) (hc : |T.cos θ| ≤ 1)
    (hs : |T.sin θ| ≤ 1) (hp : |p.x - c.x| ≤ 2 ^ 32) (hq : |p.y - c.y| ≤ 2 ^ 32)
    (hcx : |c.x| ≤ 2 ^ 31) (hcy : |c.y| ≤ 2 ^ 31) :
    |(rotatePointFlSum rnd64 T p c θ).1| ≤ ((2 ^ 34 : Int) : K)
      ∧ |(rotatePointFlSum rnd64 T p c θ).2| ≤ ((2 ^ 34 : Int) : K) := by
  have a1 := abs_intCast_mul_le _ (2 ^ 32) (T.cos θ) hp hc
  have a2 := abs_intCast_mul_le _ (2 ^ 32) (T.sin θ) hq hs
  have a3 := abs_intCast_mul_le _ (2 ^ 32) (T.sin θ) hp hs
  have a4 := abs_intCast_mul_le _ (2 ^ 32) (T.cos θ) hq hc
  have b1 := (rnd64_offset_abs_le _ (by norm_num) _ _ a1 a2).2
  have b2 := (rnd64_offset_abs_le _ (by norm_num) _ _ a3 a4).1
  have c1 : |(c.x : K)| ≤ ((2 ^ 31 : Int) : K) := by
    rw [← Int.cast_abs]
    exact_mod_cast hcx
  have c2 : |(c.y : K)| ≤ ((2 ^ 31 : Int) : K) := by
    rw [← Int.cast_abs]
    exact_mod_cast hcy
  push_cast at b1 b2 c1 c2 ⊢
  constructor
  · have := abs_add (c.x : K)
      (rnd64 (rnd64 (((p.x - c.x : Int) : K) * T.cos θ) - rnd64 (((p.y - c.y : Int) : K) * T.sin θ)))
    simp only [rotatePointFlSum]
    push_cast at this ⊢
    linarith
  · have := abs_add (c.y : K)
      (rnd64 (rnd64 (((p.x - c.x : Int) : K) * T.sin θ) + rnd64 (((p.y - c.y : Int) : K) * T.cos θ)))
    simp only [rotatePointFlSum]
    push_cast at this ⊢
    linarith

/-- A value bounded by 2^34, with or without a whole number of `int` range
added, rounds to binary64 between the neighbouring integers. -/
theorem rnd64_shift_roundsWithin (v : K) (a : Int) (hv : |v| ≤ ((2 ^ 34 : Int) : K))
    (ha : |a| ≤ 2 ^ 31) : roundsWithin rnd64 v ∧ roundsWithin rnd64 (v + (a : K)) := by
  have h1 : |(a : K)| ≤ ((2 ^ 31 : Int) : K) := by
    rw [← Int.cast_abs]
    exact_mod_cast ha
  have h2 := abs_add v (a : K)
  push_cast at hv h1
  have h3 : (2 : K) ^ 34 + 2 ^ 31 < 2 ^ 53 := by norm_num
  have h4 : (0 : K) ≤ 2 ^ 31 := by positivity
  exact ⟨rnd64_between v (by linarith), rnd64_between _ (by linarith)⟩

/-- In binary64, `rotatePoint` on a point and center of `int` range moved by
the same offset is within 1 of `rotatePoint` on the point and center, moved
afterwards. -/
theorem rotatePointFl_move_close (T : Trig K) (p c : POINT) (θ : K) (a b : Int)
    (hc : |T.cos θ| ≤ 1) (hs : |T.sin θ| ≤ 1) (hp : |p.x - c.x| ≤ 2 ^ 32)
    (hq : |p.y - c.y| ≤ 2 ^ 32) (hcx : |c.x| ≤ 2 ^ 31) (hcy : |c.y| ≤ 2 ^ 31)
    (ha : |a| ≤ 2 ^ 31) (hb : |b| ≤ 2 ^ 31) :
    |(rotatePointFl rnd64 T { x := p.x + a, y := p.y + b } { x := c.x + a, y := c.y + b } θ).x
        - ((rotatePointFl rnd64 T p c θ).x + a)| ≤ 1
    ∧ |(rotatePointFl rnd64 T { x := p.x + a, y := p.y + b } { x := c.x + a, y := c.y + b } θ).y
        - ((rotatePointFl rnd64 T p c θ).y + b)| ≤ 1 := by
  have hv := rotatePointFlSum_abs_le T p c θ hc hs hp hq hcx hcy
  have h1 := rnd64_shift_roundsWithin _ a hv.1 ha
  have h2 := rnd64_shift_roundsWithin _ b hv.2 hb
  rw [rotatePointFl_move, rotatePointFl_eq_sum]
  exact ⟨toInt_round_shift_close rnd64 _ a h1.1 h1.2, toInt_round_shift_close rnd64 _ b h2.1 h2.2⟩

/-- The helper `rotatePoint` commutes with a move of point and center when
the sums before the last rounding are exact, with and without the offset,
and stay on their side of zero. -/
theorem rotatePointFl_move_exact (fl : K → K) (T : Trig K) (p c : POINT) (θ : K) (a b : Int)
    (h : (fl (rotatePointFlSum fl T p c θ).1 = (rotatePointFlSum fl T p c θ).1
        ∧ fl ((rotatePointFlSum fl T p c θ).1 + (a : K)) = (rotatePointFlSum fl T p c θ).1 + (a : K)
        ∧ sameSide (rotatePointFlSum fl T p c θ).1 ((rotatePointFlSum fl T p c θ).1 + (a : K)))
      ∧ (fl (rotatePointFlSum fl T p c θ).2 = (rotatePointFlSum fl T p c θ).2
        ∧ fl ((rotatePointFlSum fl T p c θ).2 + (b : K)) = (rotatePointFlSum fl T p c θ).2 + (b : K)
        ∧ sameSide (rotatePointFlSum fl T p c θ).2 ((rotatePointFlSum fl T p c θ).2 + (b : K)))) :
    rotatePointFl fl T { x := p.x + a, y := p.y + b } { x := c.x + a, y := c.y + b } θ
      = { x := (rotatePointFl fl T p c θ).x + a, y := (rotatePointFl fl T p c θ).y + b } := by
  rw [rotatePointFl_move, rotatePointFl_eq_sum,
    toInt_exact_shift fl _ a h.1.1 h.1.2.1 h.1.2.2, toInt_exact_shift fl _ b h.2.1 h.2.2.1 h.2.2.2]

/-- The pivot of a Triangle with coordinates bounded by `B` is bounded by
`B`, and every vertex is within `2 * B` of it. -/
theorem Triangle_center_abs_le (t : Triangle) (B : Int)
    (hb : ∀ p ∈ t.points, |p.x| ≤ B ∧ |p.y| ≤ B) :
    (|t.center.x| ≤ B ∧ |t.center.y| ≤ B)
      ∧ ∀ p ∈ t.points, |p.x - t.center.x| ≤ 2 * B ∧ |p.y - t.center.y| ≤ 2 * B := by
  have h0 := hb t.p0 (by simp [Triangle.points])
  have h1 := hb t.p1 (by simp [Triangle.points])
  have h2 := hb t.p2 (by simp [Triangle.points])
  have kx := (tdiv_three_toward_zero (t.p0.x + t.p1.x + t.p2.x)).1
  have ky := (tdiv_three_toward_zero (t.p0.y + t.p1.y + t.p2.y)).1
  rw [abs_le, abs_le] at h0 h1 h2
  have sx : |t.p0.x + t.p1.x + t.p2.x| ≤ 3 * B := abs_le.mpr ⟨by omega, by omega⟩
  have sy : |t.p0.y + t.p1.y + t.p2.y| ≤ 3 * B := abs_le.mpr ⟨by omega, by omega⟩
  have cx : |t.center.x| ≤ B := by
    show |Int.tdiv (t.p0.x + t.p1.x + t.p2.x) 3| ≤ B
    have := abs_le.mp (kx.trans sx)
    exact abs_le.mpr ⟨by omega, by omega⟩
  have cy : |t.center.y| ≤ B := by
    show |Int.tdiv (t.p0.y + t.p1.y + t.p2.y) 3| ≤ B
    have := abs_le.mp (ky.trans sy)
    exact abs_le.mpr ⟨by omega, by omega⟩
  refine ⟨⟨cx, cy⟩, fun p hp => ?_⟩
  have h := hb p hp
  rw [abs_le] at cx cy
  rw [abs_le, abs_le] at h
  rw [abs_le, abs_le]
  refine ⟨⟨?_, ?_⟩, ?_, ?_⟩ <;> omega

end MoveRotateRounded

/-- C17, amended: for every Triangle with coordinates of `int` range, every
angle θ with cosine and sine of absolute value at most 1, and all offsets dx,
dy of `int` range such that each of the two coordinate sums of the vertices is
on the same side of zero before and after adding 3·dx resp. 3·dy, the rotation
pivot moves with the triangle and, in binary64 arithmetic, every coordinate
that `moveFigure(dx, dy)` followed by `rotate(θ)` yields is within 1 of the
coordinate that `rotate(θ)` followed by `moveFigure(dx, dy)` yields; the two
orders yield the same three vertices when, for each vertex, the rotated
coordinates before the cast are exact in `double` with and without the offset
and lie on the same side of zero before and after adding dx resp. dy. -/
theorem move_rotateFl_near_rotateFl_move {K : Type} [LinearOrderedField K] [FloorRing K]
    (T : Trig K) (t : Triangle) (θ : K) (dx dy : Int)
    (hc : |T.cos θ| ≤ 1) (hs : |T.sin θ| ≤ 1)
    (hb : ∀ p ∈ t.points, |p.x| ≤ 2 ^ 31 ∧ |p.y| ≤ 2 ^ 31)
    (hdx : |dx| ≤ 2 ^ 31) (hdy : |dy| ≤ 2 ^ 31)
    (hx : sameSide (t.p0.x + t.p1.x + t.p2.x) (t.p0.x + t.p1.x + t.p2.x + 3 * dx))
    (hy : sameSide (t.p0.y + t.p1.y + t.p2.y) (t.p0.y + t.p1.y + t.p2.y + 3 * dy)) :
    (t.moveFigure dx dy).center = { x := t.center.x + dx, y := t.center.y + dy }
    ∧ List.Forall₂ (fun p q : POINT => |p.x - q.x| ≤ 1 ∧ |p.y - q.y| ≤ 1)
        ((t.moveFigure dx dy).rotateFl rnd64 T θ).points
        ((t.rotateFl rnd64 T θ).moveFigure dx dy).points
    ∧ ((∀ p ∈ t.points,
          (rnd64 (rotatePointFlSum rnd64 T p t.center θ).1
              = (rotatePointFlSum rnd64 T p t.center θ).1
            ∧ rnd64 ((rotatePointFlSum rnd64 T p t.center θ).1 + (dx : K))
              = (rotatePointFlSum rnd64 T p t.center θ).1 + (dx : K)
            ∧ sameSide (rotatePointFlSum rnd64 T p t.center θ).1
                ((rotatePointFlSum rnd64 T p t.center θ).1 + (dx : K)))
          ∧ (rnd64 (rotatePointFlSum rnd64 T p t.center θ).2
              = (rotatePointFlSum rnd64 T p t.center θ).2
            ∧ rnd64 ((rotatePointFlSum rnd64 T p t.center θ).2 + (dy : K))
              = (rotatePointFlSum rnd64 T p t.center θ).2 + (dy : K)
            ∧ sameSide (rotatePointFlSum rnd64 T p t.center θ).2
                ((rotatePointFlSum rnd64 T p t.center θ).2 + (dy : K))))
        → (t.moveFigure dx dy).rotateFl rnd64 T θ
          = (t.rotateFl rnd64 T θ).moveFigure dx dy) := by
  have hcen := Triangle_center_moveFigure t dx dy hx hy
  obtain ⟨⟨cx, cy⟩, hd⟩ := Triangle_center_abs_le t (2 ^ 31) hb
  have m0 : t.p0 ∈ t.points := by simp [Triangle.points]
  have m1 : t.p1 ∈ t.points := by simp [Triangle.points]
  have m2 : t.p2 ∈ t.points := by simp [Triangle.points]
  have e : (t.moveFigure dx dy).rotateFl rnd64 T θ
      = Triangle.mk
          (rotatePointFl rnd64 T { x := t.p0.x + dx, y := t.p0.y + dy }
            { x := t.center.x + dx, y := t.center.y + dy } θ)
          (rotatePointFl rnd64 T { x := t.p1.x + dx, y := t.p1.y + dy }
            { x := t.center.x + dx, y := t.center.y + dy } θ)
          (rotatePointFl rnd64 T { x := t.p2.x + dx, y := t.p2.y + dy }
            { x := t.center.x + dx, y := t.center.y + dy } θ) := by
    simp only [Triangle.rotateFl, hcen]
    rfl
  refine ⟨hcen, ?_, fun h => ?_⟩
  · rw [e]
    exact List.Forall₂.cons
      (rotatePointFl_move_close T t.p0 t.center θ dx dy hc hs (hd _ m0).1 (hd _ m0).2 cx cy hdx hdy)
      (List.Forall₂.cons
        (rotatePointFl_move_close T t.p1 t.center θ dx dy hc hs (hd _ m1).1 (hd _ m1).2 cx cy
          hdx hdy)
        (List.Forall₂.cons
          (rotatePointFl_move_close T t.p2 t.center θ dx dy hc hs (hd _ m2).1 (hd _ m2).2 cx cy
            hdx hdy)
          List.Forall₂.nil))
  · rw [e, rotatePointFl_move_exact rnd64 T t.p0 t.center θ dx dy (h _ m0),
      rotatePointFl_move_exact rnd64 T t.p1 t.center θ dx dy (h _ m1),
      rotatePointFl_move_exact rnd64 T t.p2 t.center θ dx dy (h _ m2)]
    rfl

/-- C17, amended, on the Triangle of the program at the angle `M_PI`, moved
by (10,20). -/
theorem move_rotateFl_near_rotateFl_move_witness :
    sameSide ((400 : Int) + 350 + 450) (400 + 350 + 450 + 3 * 10)
    ∧ sameSide ((50 : Int) + 200 + 200) (50 + 200 + 200 + 3 * 20)
    ∧ List.Forall₂ (fun p q : POINT => |p.x - q.x| ≤ 1 ∧ |p.y - q.y| ≤ 1)
        (Triangle.rotateFl rnd64 libmAtPi
          (Triangle.moveFigure
            (Triangle.mk { x := 400, y := 50 } { x := 350, y := 200 } { x := 450, y := 200 })
            10 20) M_PI).points
        (Triangle.moveFigure
          (Triangle.rotateFl rnd64 libmAtPi
            (Triangle.mk { x := 400, y := 50 } { x := 350, y := 200 } { x := 450, y := 200 })
            M_PI) 10 20).points :=
  ⟨by decide, by decide,
    (move_rotateFl_near_rotateFl_move libmAtPi
      (Triangle.mk { x := 400, y := 50 } { x := 350, y := 200 } { x := 450, y := 200 }) M_PI 10 20
      (by norm_num [libmAtPi, abs_le]) (by norm_num [libmAtPi, abs_le])
      (by
        intro p hp
        simp only [Triangle.points, List.mem_cons, List.mem_singleton, List.not_mem_nil,
          or_false] at hp
        rcases hp with rfl | rfl | rfl <;> norm_num)
      (by norm_num) (by norm_num) (by decide) (by decide)).2.1⟩

/-- Exact arithmetic at the angle arccos (3/5): the Triangle (-1,0), (0,1),
(0,0), whose pivot is (0,0), turns into (0,0), (0,0), (0,0). -/
theorem rotate_unit_exact :
    Triangle.rotate (Trig.mk Real.cos Real.sin)
        (Triangle.mk { x := -1, y := 0 } { x := 0, y := 1 } { x := 0, y := 0 })
        (Real.arccos (3 / 5))
      = Triangle.mk { x := 0, y := 0 } { x := 0, y := 0 } { x := 0, y := 0 } := by
  have hc : Triangle.center
      (Triangle.mk { x := -1, y := 0 } { x := 0, y := 1 } { x := 0, y := 0 })
      = { x := 0, y := 0 } := rfl
  simp only [Triangle.rotate, hc, rotatePoint, cos_arccos_three_fifths, sin_arccos_three_fifths,
    Triangle.mk.injEq, POINT.mk.injEq]
  refine ⟨⟨?_, ?_⟩, ⟨?_, ?_⟩, ?_, ?_⟩ <;>
    first
    | (refine toInt_eq_of_nonneg _ _ ?_ ?_ ?_ <;> norm_num; done)
    | (refine toInt_eq_of_nonpos _ _ ?_ ?_ ?_ <;> norm_num)

/-- Exact arithmetic at the angle arccos (3/5): the Triangle (0,0), (1,1),
(1,0), whose pivot is (0,0), turns into (0,0), (0,1), (0,0). -/
theorem rotate_unit_moved_exact :
    Triangle.rotate (Trig.mk Real.cos Real.sin)
        (Triangle.mk { x := 0, y := 0 } { x := 1, y := 1 } { x := 1, y := 0 })
        (Real.arccos (3 / 5))
      = Triangle.mk { x := 0, y := 0 } { x := 0, y := 1 } { x := 0, y := 0 } := by
  have hc : Triangle.center
      (Triangle.mk { x := 0, y := 0 } { x := 1, y := 1 } { x := 1, y := 0 })
      = { x := 0, y := 0 } := rfl
  simp only [Triangle.rotate, hc, rotatePoint, cos_arccos_three_fifths, sin_arccos_three_fifths,
    Triangle.mk.injEq, POINT.mk.injEq]
  refine ⟨⟨?_, ?_⟩, ⟨?_, ?_⟩, ?_, ?_⟩ <;>
    first
    | (refine toInt_eq_of_nonneg _ _ ?_ ?_ ?_ <;> norm_num; done)
    | (refine toInt_eq_of_nonpos _ _ ?_ ?_ ?_ <;> norm_num)

/-- The doubles 0.6 and 0.8 that `cos` and `sin` return at the double
arccos 0.6, and their difference and sum in binary64. -/
theorem rnd64_acos_values :
    rnd64 (5404319552844595 / 2 ^ 53 : ℚ) = 5404319552844595 / 2 ^ 53
    ∧ rnd64 (3602879701896397 / 2 ^ 52 : ℚ) = 3602879701896397 / 2 ^ 52
    ∧ rnd64 ((5404319552844595 / 2 ^ 53 : ℚ) - 3602879701896397 / 2 ^ 52)
        = -(1801439850948199 / 2 ^ 53)
    ∧ rnd64 ((3602879701896397 / 2 ^ 52 : ℚ) + 5404319552844595 / 2 ^ 53)
        = 6305039478318694 / 2 ^ 52 := by
  refine ⟨rnd64_repr _ 5404319552844595 (-53) (by norm_num) (by norm_num) (by norm_num),
    rnd64_repr _ 3602879701896397 (-52) (by norm_num) (by norm_num) (by norm_num), ?_, ?_⟩
  · rw [rnd64_repr _ (-1801439850948199) (-53) (by norm_num) (by norm_num) (by norm_num)]
    norm_num
  · rw [rnd64_of_nonneg _ (-52) 6305039478318694 (by norm_num) (by norm_num) (by norm_num)
      (by norm_num) (Or.inr ⟨by norm_num, by norm_num⟩)]
    norm_num

/-- Binary64 arithmetic at the double arccos 0.6: the Triangle (-1,0), (0,1),
(0,0) turns into (0,0), (0,0), (0,0). -/
theorem rotateFl_unit :
    Triangle.rotateFl rnd64 libmAtAcos
        (Triangle.mk { x := -1, y := 0 } { x := 0, y := 1 } { x := 0, y := 0 })
        (522020799781813 / 2 ^ 49)
      = Triangle.mk { x := 0, y := 0 } { x := 0, y := 0 } { x := 0, y := 0 } := by
  obtain ⟨rc, rs, rd, ra⟩ := rnd64_acos_values
  have hc : Triangle.center
      (Triangle.mk { x := -1, y := 0 } { x := 0, y := 1 } { x := 0, y := 0 })
      = { x := 0, y := 0 } := rfl
  have t1 : toInt (-(5404319552844595 / 2 ^ 53) : ℚ) = 0 :=
    toInt_eq_of_nonpos _ _ (by norm_num) (by norm_num) (by norm_num)
  have t2 : toInt (-(3602879701896397 / 2 ^ 52) : ℚ) = 0 :=
    toInt_eq_of_nonpos _ _ (by norm_num) (by norm_num) (by norm_num)
  have t3 : toInt (5404319552844595 / 2 ^ 53 : ℚ) = 0 :=
    toInt_eq_of_nonneg _ _ (by norm_num) (by norm_num) (by norm_num)
  have t0 : toInt (0 : ℚ) = 0 := toInt_intCast 0
  simp only [Triangle.rotateFl, hc, rotatePointFl, libmAtAcos, sub_zero, sub_self, Int.cast_zero,
    Int.cast_one, Int.cast_neg, zero_mul, one_mul, neg_mul, rnd64_zero, rnd64_neg, rc, rs,
    zero_add, add_zero, zero_sub, t0, t1, t2, t3]

/-- Binary64 arithmetic at the double arccos 0.6: the Triangle (0,0), (1,1),
(1,0) turns into (0,0), (0,1), (0,0). -/
theorem rotateFl_unit_moved :
    Triangle.rotateFl rnd64 libmAtAcos
        (Triangle.mk { x := 0, y := 0 } { x := 1, y := 1 } { x := 1, y := 0 })
        (522020799781813 / 2 ^ 49)
      = Triangle.mk { x := 0, y := 0 } { x := 0, y := 1 } { x := 0, y := 0 } := by
  obtain ⟨rc, rs, rd, ra⟩ := rnd64_acos_values
  have hc : Triangle.center
      (Triangle.mk { x := 0, y := 0 } { x := 1, y := 1 } { x := 1, y := 0 })
      = { x := 0, y := 0 } := rfl
  have rd2 : rnd64 (-(1801439850948199 / 2 ^ 53) : ℚ) = -(1801439850948199 / 2 ^ 53) := by
    rw [rnd64_neg, rnd64_repr _ 1801439850948199 (-53) (by norm_num) (by norm_num) (by norm_num)]
  have ra2 : rnd64 (6305039478318694 / 2 ^ 52 : ℚ) = 6305039478318694 / 2 ^ 52 :=
    rnd64_repr _ 6305039478318694 (-52) (by norm_num) (by norm_num) (by norm_num)
  have t1 : toInt (-(1801439850948199 / 2 ^ 53) : ℚ) = 0 :=
    toInt_eq_of_nonpos _ _ (by norm_num) (by norm_num) (by norm_num)
  have t2 : toInt (6305039478318694 / 2 ^ 52 : ℚ) = 1 :=
    toInt_eq_of_nonneg _ _ (by norm_num) (by norm_num) (by norm_num)
  have t3 : toInt (5404319552844595 / 2 ^ 53 : ℚ) = 0 :=
    toInt_eq_of_nonneg _ _ (by norm_num) (by norm_num) (by norm_num)
  have t4 : toInt (3602879701896397 / 2 ^ 52 : ℚ) = 0 :=
    toInt_eq_of_nonneg _ _ (by norm_num) (by norm_num) (by norm_num)
  have t0 : toInt (0 : ℚ) = 0 := toInt_intCast 0
  simp only [Triangle.rotateFl, hc, rotatePointFl, libmAtAcos, sub_zero, sub_self, Int.cast_zero,
    Int.cast_one, zero_mul, one_mul, rnd64_zero, rc, rs, rd, ra, rd2, ra2,
    zero_add, add_zero, t0, t1, t2, t3, t4]

/-- C17, as stated, fails: the Triangle (-1,0), (0,1), (0,0) has the pivot
(0,0), since -1/3 = 0 in `int`, and after `moveFigure(1, 0)` the pivot is
still (0,0), since 2/3 = 0.  At the angle arccos (3/5), with exact cosine 3/5
and sine 4/5, `moveFigure(1, 0)` followed by `rotate` yields (0,0), (0,1),
(0,0), while `rotate` followed by `moveFigure(1, 0)` yields (1,0), (1,0),
(1,0); binary64 arithmetic at the double arccos 0.6 = 0.9272952180016123,
where `cos` returns 0.6 and `sin` returns 0.8, yields the same vertices. -/
theorem move_rotate_differ :
    Triangle.rotate (Trig.mk Real.cos Real.sin)
        (Triangle.moveFigure
          (Triangle.mk { x := -1, y := 0 } { x := 0, y := 1 } { x := 0, y := 0 }) 1 0)
        (Real.arccos (3 / 5))
      = Triangle.mk { x := 0, y := 0 } { x := 0, y := 1 } { x := 0, y := 0 }
    ∧ Triangle.moveFigure
        (Triangle.rotate (Trig.mk Real.cos Real.sin)
          (Triangle.mk { x := -1, y := 0 } { x := 0, y := 1 } { x := 0, y := 0 })
          (Real.arccos (3 / 5))) 1 0
      = Triangle.mk { x := 1, y := 0 } { x := 1, y := 0 } { x := 1, y := 0 }
    ∧ Triangle.rotateFl rnd64 libmAtAcos
        (Triangle.moveFigure
          (Triangle.mk { x := -1, y := 0 } { x := 0, y := 1 } { x := 0, y := 0 }) 1 0)
        (522020799781813 / 2 ^ 49)
      = Triangle.mk { x := 0, y := 0 } { x := 0, y := 1 } { x := 0, y := 0 }
    ∧ Triangle.moveFigure
        (Triangle.rotateFl rnd64 libmAtAcos
          (Triangle.mk { x := -1, y := 0 } { x := 0, y := 1 } { x := 0, y := 0 })
          (522020799781813 / 2 ^ 49)) 1 0
      = Triangle.mk { x := 1, y := 0 } { x := 1, y := 0 } { x := 1, y := 0 } := by
  have hm : Triangle.moveFigure
      (Triangle.mk { x := -1, y := 0 } { x := 0, y := 1 } { x := 0, y := 0 }) 1 0
      = Triangle.mk { x := 0, y := 0 } { x := 1, y := 1 } { x := 1, y := 0 } := rfl
  rw [hm, rotate_unit_exact, rotate_unit_moved_exact, rotateFl_unit, rotateFl_unit_moved]
  exact ⟨rfl, rfl, rfl, rfl⟩

/-! ## Rotation there and back in `double` -/

section RoundingSign

variable {K : Type} [LinearOrderedField K] [FloorRing K]

end RoundingSign

section RoundingError

variable {K : Type} [LinearOrderedField K] [FloorRing K]

end RoundingError

section RotationError

variable {K : Type} [LinearOrderedField K] [FloorRing K]

end RotationError

end Figures
